import Mathlib

/-!
Verification of the Parsr page-layout core: the table-reconstruction
algorithm, the pdfminer extraction helpers and the supporting geometric
document model.  Numeric quantities that the implementation stores in
IEEE doubles are modelled exactly: every geometric definition is
parametric in a linear ordered commutative ring `R` (so the rationals,
the exact model of the doubles the code manipulates, are covered), and
concrete instances evaluate over the integers.  The arithmetic performed
by the code under scrutiny (min/max, absolute values, comparisons,
linear combinations) is exact on the inputs the claims quantify over, so
this model is faithful.
-/

namespace Parsr

variable {R : Type} [LinearOrderedCommRing R]

/-- A raw extractor rectangle in the order the extractor reports it:
x0 (left), y0 (top), x1 (right), y1 (bottom), in the core's top-down
convention. -/
structure Rect (R : Type) where
  x0 : R
  y0 : R
  x1 : R
  y1 : R
deriving DecidableEq, Repr

/-- Modelled from the spec: a raw cell record of a RawTableGrid,
`\x7bboundingBox, text\x7d`, as produced by the external table extractor
(spec section 3, RawTableGrid).  The reconstruction module that consumes
it is not part of the provided sources; everything below it is built
from the spec's section 4.3 description. -/
structure RawCell (R : Type) where
  box : Rect R
  text : String
deriving DecidableEq, Repr

/-- Modelled from the spec: one raw row of a RawTableGrid. -/
abbrev RawRow (R : Type) := List (RawCell R)

/-- Modelled from the spec: a raw table grid, an ordered sequence of raw
rows (spec section 3). -/
abbrev RawGrid (R : Type) := List (RawRow R)

/-- Sort a list of coordinates and remove duplicates, the boundary
normalisation of spec section 4.3 step 1 ("sorted and deduplicated").
The tolerance mentioned by the spec is left as exact equality, the
spec's own open question (section 9) leaves the tolerance unspecified. -/
def dedupSort (l : List R) : List R :=
  (l.insertionSort (· ≤ ·)).dedup

/-- Modelled from the spec: step 1 of table reconstruction selects the
row with the greatest cell count as the reference row (first row among
ties, since only a strictly greater count replaces the best row). -/
def referenceRow (g : RawGrid R) : RawRow R :=
  g.foldl (fun best r => if r.length > best.length then r else best) []

/-- Modelled from the spec: the canonical column boundary set, obtained
from the left/right boundaries of the reference row's cells (spec
section 4.3 step 1). -/
def colBoundaries (g : RawGrid R) : List R :=
  dedupSort ((referenceRow g).flatMap fun c => [c.box.x0, c.box.x1])

/-- Modelled from the spec: the canonical row boundary set, from the
top/bottom boundaries across the whole table (spec section 4.3
step 3). -/
def rowBoundaries (g : RawGrid R) : List R :=
  dedupSort (g.flatMap fun r => r.flatMap fun c => [c.box.y0, c.box.y1])

/-- Modelled from the spec: the number of canonical intervals of the
boundary list `B` that the segment `[lo, hi]` covers by more than half
of the interval's width (spec section 4.3 step 2, the 50% coverage
threshold); `2 * overlap > width` is the exact form of
`overlap > width / 2`. -/
def boundarySpan (B : List R) (lo hi : R) : ℕ :=
  (B.zip B.tail).countP fun p => decide (2 * (min hi p.2 - max lo p.1) > p.2 - p.1)

/-- Modelled from the spec: the colspan assigned to a raw cell, the
count of canonical column intervals it covers (spec section 4.3
step 2). -/
def colspanOf (g : RawGrid R) (c : RawCell R) : ℕ :=
  boundarySpan (colBoundaries g) c.box.x0 c.box.x1

/-- Modelled from the spec: the rowspan assigned to a raw cell, the
count of canonical row intervals it covers (spec section 4.3 step 3). -/
def rowspanOf (g : RawGrid R) (c : RawCell R) : ℕ :=
  boundarySpan (rowBoundaries g) c.box.y0 c.box.y1

/-- Modelled from the spec: detection of a rowspan continuation.  A raw
cell of row `k` is a repetition of an already-emitted merged region when
an earlier row holds a cell with a near-identical bounding box (spec
section 4.3 step 3); with exact coordinates "near-identical" is
identity. -/
def isContinuation (g : RawGrid R) (k : ℕ) (c : RawCell R) : Bool :=
  (g.take k).any fun r => r.any fun c2 => decide (c2.box = c.box)

/-- Modelled from the spec: one slot of a reconstructed table row, either
a cell that begins in this row or the absent slot standing for the
column-width contribution of an active rowspan continuation (spec
section 4.3 step 4). -/
inductive Slot (R : Type) where
  | cell (box : Rect R) (text : String) (colspan rowspan : ℕ)
  | cont (width : ℕ)
deriving DecidableEq, Repr

/-- The number of canonical columns a slot accounts for. -/
def Slot.width : Slot R → ℕ
  | .cell _ _ cs _ => cs
  | .cont w => w

/-- Whether a slot is an emitted cell carrying the given bounding box. -/
def Slot.isCellWithBox (b : Rect R) : Slot R → Bool
  | .cell b2 _ _ _ => decide (b2 = b)
  | .cont _ => false

/-- Sum of the slot widths of a reconstructed row: colspans of the cells
that begin in the row plus the widths of rowspan continuations. -/
def rowWidthSum (slots : List (Slot R)) : ℕ :=
  (slots.map Slot.width).sum

/-- Modelled from the spec: the slot a raw cell of row `k` becomes: an
absent continuation slot when the cell repeats an earlier row's merged
region, else an emitted cell with its computed spans (spec section 4.3
steps 2 to 4). -/
def slotOf (g : RawGrid R) (k : ℕ) (c : RawCell R) : Slot R :=
  if isContinuation g k c then Slot.cont (colspanOf g c)
  else Slot.cell c.box c.text (colspanOf g c) (rowspanOf g c)

/-- Modelled from the spec: assembly of one table row (spec section 4.3
steps 2 to 4).  Cells are emitted left to right; a continuation becomes
an absent slot; when the sum of the produced widths mismatches the
canonical column count `n` the row is malformed and degrades to
uncorrected colspan-1 cells (spec section 7, span-sum mismatch). -/
def buildRow (g : RawGrid R) (n k : ℕ) (row : RawRow R) : List (Slot R) :=
  if rowWidthSum (row.map (slotOf g k)) = n then row.map (slotOf g k)
  else row.map fun c =>
    if isContinuation g k c then Slot.cont 1
    else Slot.cell c.box c.text 1 1

/-- Modelled from the spec: the smallest rectangle containing all the
given rectangles (spec section 4.3 step 5, the table bounding box). -/
def mergeRects : List (Rect R) → Option (Rect R)
  | [] => none
  | r :: rs => some (rs.foldl (fun a b =>
      ⟨min a.x0 b.x0, min a.y0 b.y0, max a.x1 b.x1, max a.y1 b.y1⟩) r)

/-- Modelled from the spec: a reconstructed table, rows of slots plus
the canonical column count and the merged bounding box (spec
sections 3 and 4.3). -/
structure TableM (R : Type) where
  rows : List (List (Slot R))
  columnCount : ℕ
  box : Rect R
deriving DecidableEq, Repr

/-- Modelled from the spec: the table reconstruction algorithm of spec
section 4.3.  A grid with zero rows or zero canonical columns is
discarded (spec section 7, malformed raw grid); otherwise every raw row
is assembled into a row of slots. -/
def reconstructTable (g : RawGrid R) : Option (TableM R) :=
  let B := colBoundaries g
  let n := B.length - 1
  if g.isEmpty ∨ B.length < 2 then none
  else some
    { rows := (List.range g.length).map fun k => buildRow g n k (g.getD k [])
      columnCount := n
      box := (mergeRects ((g.flatten).map (·.box))).getD ⟨0, 0, 0, 0⟩ }

/-- A page element as seen by the table-detection stage: pre-existing
text elements and reconstructed tables. -/
inductive PageElement (R : Type) where
  | word (box : Rect R) (text : String)
  | table (t : TableM R)
deriving DecidableEq, Repr

/-- The bounding box of a page element. -/
def elementBox : PageElement R → Rect R
  | .word b _ => b
  | .table t => t.box

/-- Signed area of a raw rectangle. -/
def rectArea (r : Rect R) : R :=
  (r.x1 - r.x0) * (r.y1 - r.y0)

/-- Area of the intersection of two rectangles, zero when disjoint. -/
def interArea (a b : Rect R) : R :=
  max 0 (min a.x1 b.x1 - max a.x0 b.x0) * max 0 (min a.y1 b.y1 - max a.y0 b.y0)

/-- Modelled from the spec: element subsumption, majority overlap of the
element's own area with the table region (spec section 4.3 step 5 with
the 50% default threshold of section 9). -/
def subsumedBy (tableBox : Rect R) (e : PageElement R) : Bool :=
  decide (2 * interArea (elementBox e) tableBox > rectArea (elementBox e))

/-- Modelled from the spec: page splicing (spec section 4.3 step 5).
Subsumed elements are removed and the table is inserted at the position
of the first removed element; when nothing is subsumed the table is
appended after the surviving elements. -/
def spliceTable (elems : List (PageElement R)) (t : TableM R) :
    List (PageElement R) :=
  let idx := elems.findIdx (subsumedBy t.box)
  elems.take idx ++ [PageElement.table t] ++
    (elems.drop idx).filter fun e => ¬ subsumedBy t.box e

/-- Modelled from the spec: the table-detection stage for one page.  The
Extractor's raw grids are reconstructed one by one; a discarded grid
leaves the page untouched and a reconstructed table is spliced in (spec
sections 4.3 and 6).  An empty Extractor response means no tables and is
not an error: the stage is a total function of the page. -/
def tableDetectionPage (grids : List (RawGrid R)) (elems : List (PageElement R)) :
    List (PageElement R) :=
  grids.foldl (fun es g =>
    match reconstructTable g with
    | none => es
    | some t => spliceTable es t) elems

/-- Number of Table elements in a page element list. -/
def countTables (elems : List (PageElement R)) : ℕ :=
  elems.countP fun e => match e with
    | .table _ => true
    | .word _ _ => false

/-- Modelled from the spec: a row as a chain of cells whose horizontal
extents exactly tile the table width from `x` to the last canonical
boundary, every cell boundary lying on the canonical boundary list `B`
(the well-formed raw rows of spec sections 3 and 4.3). -/
def tilesFrom (B : List R) : R → List (RawCell R) → Bool
  | x, [] => decide (B.getLast? = some x)
  | x, c :: cs =>
    decide (c.box.x0 = x) && decide (x < c.box.x1) && decide (c.box.x1 ∈ B) &&
      tilesFrom B c.box.x1 cs

/-- A raw grid of m rows and n columns of aligned single cells: cell
(i, j) spans [c j, c (j+1)] horizontally and [r i, r (i+1)] vertically
(the no-merge grids of spec section 8). -/
def uniformGrid (n m : ℕ) (c r : ℕ → R) (txt : ℕ → ℕ → String) : RawGrid R :=
  (List.range m).map fun i => (List.range n).map fun j =>
    { box := ⟨c j, r i, c (j + 1), r (i + 1)⟩, text := txt i j }

/-- A two-row grid whose first row holds n aligned single cells and
whose second row is a single cell spanning the whole table width (the
full-row-merge scenario of spec section 8). -/
def fullRowGrid (n : ℕ) (c r : ℕ → R) (txt : ℕ → String) (bigText : String) :
    RawGrid R :=
  [(List.range n).map fun j => { box := ⟨c j, r 0, c (j + 1), r 1⟩, text := txt j },
   [{ box := ⟨c 0, r 1, c n, r 2⟩, text := bigText }]]

/-- A produced table with a malformed second row: the reference row has
boundaries 0, 2, 4 and the lone second-row cell [0, 3] covers only the
first canonical interval by more than half. -/
def gridBad : RawGrid ℤ :=
  [[⟨⟨0, 0, 2, 1⟩, "a"⟩, ⟨⟨2, 0, 4, 1⟩, "b"⟩], [⟨⟨0, 1, 3, 2⟩, "c"⟩]]

/-- The table the algorithm produces from `gridBad`. -/
def tableBad : TableM ℤ :=
  { rows := [[Slot.cell ⟨0, 0, 2, 1⟩ "a" 1 1, Slot.cell ⟨2, 0, 4, 1⟩ "b" 1 1],
             [Slot.cell ⟨0, 1, 3, 2⟩ "c" 1 1]]
    columnCount := 2
    box := ⟨0, 0, 4, 2⟩ }

/-- The rowspan scenario of the table-detection test: the first cell of
the first row spans two rows, the extractor repeats its rectangle in the
second row, and the fifth cell of the first row spans two columns. -/
def gridSpan : RawGrid ℤ :=
  [[⟨⟨0, 0, 1, 2⟩, "A"⟩, ⟨⟨1, 0, 2, 1⟩, "B"⟩, ⟨⟨2, 0, 3, 1⟩, "C"⟩,
    ⟨⟨3, 0, 4, 1⟩, "D"⟩, ⟨⟨4, 0, 6, 1⟩, "F"⟩],
   [⟨⟨0, 0, 1, 2⟩, "A"⟩, ⟨⟨1, 1, 2, 2⟩, "b1"⟩, ⟨⟨2, 1, 3, 2⟩, "b2"⟩,
    ⟨⟨3, 1, 4, 2⟩, "b3"⟩, ⟨⟨4, 1, 5, 2⟩, "b4"⟩, ⟨⟨5, 1, 6, 2⟩, "b5"⟩]]

/-- The repeated rectangle of the rowspan cell, as it appears in the
second raw row of `gridSpan`. -/
def spanRepeatCell : RawCell ℤ := ⟨⟨0, 0, 1, 2⟩, "A"⟩

/-- The table the algorithm produces from `gridSpan`. -/
def tableSpan : TableM ℤ :=
  { rows := [[Slot.cell ⟨0, 0, 1, 2⟩ "A" 1 2, Slot.cell ⟨1, 0, 2, 1⟩ "B" 1 1,
              Slot.cell ⟨2, 0, 3, 1⟩ "C" 1 1, Slot.cell ⟨3, 0, 4, 1⟩ "D" 1 1,
              Slot.cell ⟨4, 0, 6, 1⟩ "F" 2 1],
             [Slot.cont 1, Slot.cell ⟨1, 1, 2, 2⟩ "b1" 1 1,
              Slot.cell ⟨2, 1, 3, 2⟩ "b2" 1 1, Slot.cell ⟨3, 1, 4, 2⟩ "b3" 1 1,
              Slot.cell ⟨4, 1, 5, 2⟩ "b4" 1 1, Slot.cell ⟨5, 1, 6, 2⟩ "b5" 1 1]]
    columnCount := 6
    box := ⟨0, 0, 6, 2⟩ }

/-- The core bounding box: left, top, width and height, top increasing
downward (spec section 3). -/
structure BoundingBox (R : Type) where
  left : R
  top : R
  width : R
  height : R
deriving DecidableEq, Repr

/-- The smallest box containing two boxes. -/
def BoundingBox.union2 (a b : BoundingBox R) : BoundingBox R :=
  let l := min a.left b.left
  let t := min a.top b.top
  let r := max (a.left + a.width) (b.left + b.width)
  let bo := max (a.top + a.height) (b.top + b.height)
  ⟨l, t, r - l, bo - t⟩

/-- Modelled from the spec: BoundingBox.merge, the smallest box
containing all inputs; merge of an empty list is the error branch,
modelled as none (spec sections 3 and 4.1; the BoundingBox class source
is not among the provided files). -/
def BoundingBox.merge : List (BoundingBox R) → Option (BoundingBox R)
  | [] => none
  | b :: bs => some (bs.foldl BoundingBox.union2 b)

/-- getBoundingBox of PdfminerExtractor.ts (lines 264 to 277): converts a
pdfminer bbox x0, y0, x1, y1 with bottom-left origin into the core
left/top/width/height box.  The comma-separated string and parseFloat
are abstracted into the list of already-parsed numbers, so the splitter
argument is dropped; missing components default to 0. -/
def getBoundingBox (bbox : List R) (pageHeight : R) (scalingFactor : R) :
    BoundingBox R :=
  let values := bbox.map (· * scalingFactor)
  let width := |values.getD 2 0 - values.getD 0 0|
  let height := |values.getD 1 0 - values.getD 3 0|
  let left := values.getD 0 0
  let top := |pageHeight - values.getD 1 0| - height
  ⟨left, top, width, height⟩

/-- Modelled from the spec: a font value with the fields the pdfminer
extractor constructs (the Font class source is not among the provided
files). -/
structure Font (R : Type) where
  name : String
  size : R
  weight : String
  isItalic : Bool
  isUnderline : Bool
  color : String
deriving DecidableEq, Repr

/-- Modelled from the spec: the undefined font returned when no most
common font exists. -/
def Font.undefinedFont : Font R := ⟨"undefined", 0, "medium", false, false, ""⟩

/-- Modelled from the spec: Font.isEqual, the equivalence used for the
grouping-by-equivalence pass (spec section 9); with all observable
fields in the structure it is structural equality. -/
def Font.isEqual (a b : Font R) : Bool := decide (a = b)

/-- The basket guard of getMostCommonFont (source lines 286 to 290):
basket.length greater than zero and the basket's first element equal to
the font. -/
def basketMatches {α : Type} (isEq : α → α → Bool) (f : α) : List α → Bool
  | [] => false
  | h :: _ => isEq h f

/-- The inner basket scan of getMostCommonFont (source lines 284 to
291): the font is appended to every basket whose first element it
equals, and the flag records whether any basket matched. -/
def pushToBaskets {α : Type} (isEq : α → α → Bool) (f : α) :
    List (List α) → List (List α) × Bool
  | [] => ([], false)
  | b :: bs =>
    let rest := pushToBaskets isEq f bs
    if basketMatches isEq f b then ((b ++ [f]) :: rest.1, true)
    else (b :: rest.1, rest.2)

/-- The basket construction of getMostCommonFont (source lines 282 to
296): fonts are folded left to right; an unmatched font opens a new
singleton basket at the end. -/
def buildBaskets {α : Type} (isEq : α → α → Bool) (fonts : List α) :
    List (List α) :=
  fonts.foldl (fun baskets f =>
    let p := pushToBaskets isEq f baskets
    if p.2 then p.1 else p.1 ++ [[f]]) []

/-- getMostCommonFont of PdfminerExtractor.ts (lines 279 to 307),
parametric in the element type and the equality used by the source's
Font.isEqual.  The initial reduce with concat copies the input list;
baskets are sorted by descending size (a stable sort, as ECMAScript
guarantees) and the first element of the first nonempty-checked basket
is returned, else the undefined font. -/
def getMostCommonFont {α : Type} (isEq : α → α → Bool) (undefinedFont : α)
    (theFonts : List α) : α :=
  let fonts := theFonts.foldl (fun a b => a ++ [b]) []
  let baskets := buildBaskets isEq fonts
  let sorted := baskets.insertionSort (fun a b => b.length ≤ a.length)
  match sorted with
  | (f :: _) :: _ => f
  | _ => undefinedFont

/-- A single glyph with its box and font (the Character element of the
document model). -/
structure Character (R : Type) where
  box : BoundingBox R
  content : String
  font : Font R
deriving DecidableEq, Repr

/-- A word: the merged box of its characters (none models the merge
error branch), the owned characters and the representative font. -/
structure Word (R : Type) where
  box : Option (BoundingBox R)
  content : List (Character R)
  font : Font R
deriving DecidableEq, Repr

/-- The Word construction of breakLineIntoWords (source lines 489 to
494): box from BoundingBox.merge over the characters' boxes, the
characters, and the most common font. -/
def wordOf (cs : List (Character R)) : Word R :=
  ⟨BoundingBox.merge (cs.map (·.box)), cs,
    getMostCommonFont Font.isEqual Font.undefinedFont (cs.map (·.font))⟩

/-- Attributes of a pdfminer text node; bbox and ncolour carry the
parsed numeric payload, string parsing being abstracted. -/
structure PdfminerTextAttr (R : Type) where
  font : String
  size : R
  bbox : List R
  ncolour : List R
deriving DecidableEq, Repr

/-- A pdfminer text record: optional character content and optional
attributes, matching the optional fields of the XML-derived object. -/
structure PdfminerText (R : Type) where
  content : Option String
  attr : Option (PdfminerTextAttr R)
deriving DecidableEq, Repr

/-- The zero width space pdfminer sometimes emits. -/
def zeroWidthSpace : String := "​"

/-- notAllowedChars of breakLineIntoWords (source line 431). -/
def notAllowedChars : List String := [zeroWidthSpace]

/-- Whether the character list `p` occurs at the front of `s`. -/
def charsHasPref : List Char → List Char → Bool
  | _, [] => true
  | [], _ :: _ => false
  | c :: cs, d :: ds => c == d && charsHasPref cs ds

/-- Whether the character list `p` occurs contiguously inside `s`. -/
def charsContains (s p : List Char) : Bool :=
  match s with
  | [] => p.isEmpty
  | _ :: cs => charsHasPref s p || charsContains cs p

/-- Substring test standing for the source's RegExp literal-pattern
tests. -/
def containsSub (s pat : String) : Bool := charsContains s.data pat.data

/-- Case-insensitive substring test (the source's gim-flagged RegExp
tests), with a lower-case pattern. -/
def containsSubLower (s pat : String) : Bool :=
  charsContains (s.data.map Char.toLower) pat.data

/-- getValidCharacter of PdfminerExtractor.ts (lines 316 to 318): a
cid-encoded glyph becomes a question mark. -/
def getValidCharacter (character : String) : String :=
  if containsSub character "(cid:" then "?" else character

/-- Lower-case hexadecimal digits of a natural number. -/
def hexNat (n : ℕ) : String := (Nat.toDigits 16 n).asString

/-- One colour component of ncolourToHex: ceil of x * 255 rendered in
hexadecimal and padded to two digits. -/
def hexComp [FloorRing R] (x : R) : String :=
  let n : ℤ := ⌈x * 255⌉
  let hex := if n < 0 then "-" ++ hexNat n.natAbs else hexNat n.toNat
  if hex.length = 1 then "0" ++ hex else hex

/-- ncolourToHex of PdfminerExtractor.ts (lines 565 to 581) on the
parsed colour components; a missing second or third component falls back
to the first, as the source's falsy-or does for absent entries. -/
def ncolourToHex [FloorRing R] (color : List R) : String :=
  let r := color.getD 0 0
  let g := color.getD 1 r
  let b := color.getD 2 r
  "#" ++ hexComp r ++ hexComp g ++ hexComp b

/-- The Font built for one character (source lines 440 to 445): bold,
italic and underline are case-insensitive substring tests on the font
name. -/
def fontFromAttr [FloorRing R] (a : PdfminerTextAttr R) : Font R :=
  { name := a.font
    size := a.size
    weight := if containsSubLower a.font "bold" then "bold" else "medium"
    isItalic := containsSubLower a.font "italic"
    isUnderline := containsSubLower a.font "underline"
    color := ncolourToHex a.ncolour }

/-- Attributes used when a text record carries content but no attribute
object (the source would fault there; the model totalises it). -/
def defaultAttr : PdfminerTextAttr R := ⟨"", 0, [], []⟩

/-- The character built from one pdfminer text record (source lines 434
to 453): none when the record has no content. -/
def charOf [FloorRing R] (pageHeight scalingFactor : R) (t : PdfminerText R) :
    Option (Character R) :=
  match t.content with
  | none => none
  | some s => some
      { box := getBoundingBox (t.attr.getD defaultAttr).bbox pageHeight scalingFactor
        content := getValidCharacter s
        font := fontFromAttr (t.attr.getD defaultAttr) }

/-- thereAreFakeSpaces of PdfminerExtractor.ts (lines 531 to 555): true
when some empty record without attributes is directly followed by an
empty record with attributes. -/
def thereAreFakeSpaces (texts : List (PdfminerText R)) : Bool :=
  let emptyWithAttr := (List.range texts.length).filter fun i =>
    match texts.getD i ⟨none, none⟩ with
    | ⟨none, some _⟩ => true
    | _ => false
  let emptyWithNoAttr := (List.range texts.length).filter fun i =>
    match texts.getD i ⟨none, none⟩ with
    | ⟨none, none⟩ => true
    | _ => false
  emptyWithNoAttr.any fun pos => emptyWithAttr.contains (pos + 1)

/-- isFakeChar of PdfminerExtractor.ts (lines 557 to 563). -/
def isFakeChar (t : PdfminerText R) (fakeSpacesInLine : Bool) : Bool :=
  fakeSpacesInLine && t.content.isNone && t.attr.isNone

/-- The front trim of breakLineIntoWords (source lines 454 to 456):
drop the first entry when it is undefined or the separator. -/
def trimFront (wordSeparator : String) :
    List (Option (Character R)) → List (Option (Character R))
  | [] => []
  | none :: rest => rest
  | some c :: rest =>
    if c.content = wordSeparator then rest else some c :: rest

/-- The back trim of breakLineIntoWords (source lines 457 to 459):
drop the last entry when it is undefined or the separator. -/
def trimBack (wordSeparator : String) (chars : List (Option (Character R))) :
    List (Option (Character R)) :=
  match chars.getLast? with
  | none => chars
  | some none => chars.dropLast
  | some (some c) =>
    if c.content = wordSeparator then chars.dropLast else chars

/-- The separator locations of breakLineIntoWords (source lines 474 to
484): indices of undefined entries, excluding index 0 and the (never
attained) index equal to the length. -/
def sepLocs (chars : List (Option (Character R))) : List ℕ :=
  ((((List.range chars.length).filter fun i =>
      decide (chars[i]? = some none)).filter fun l =>
      decide (l ≠ 0)).filter fun l => decide (l ≠ chars.length))

/-- The word-emitting loop of breakLineIntoWords (source lines 507 to
526): one selection per separator, from just after the separator to the
next separator or the end, pushed only when nonempty. -/
def wordsAfterSeps (chars : List (Option (Character R))) : List ℕ → List (Word R)
  | [] => []
  | [l] =>
    let sel := (chars.drop (l + 1)).filterMap id
    if 0 < sel.length then [wordOf sel] else []
  | l :: l2 :: rest =>
    let sel := ((chars.drop (l + 1)).take (l2 - (l + 1))).filterMap id
    (if 0 < sel.length then [wordOf sel] else []) ++
      wordsAfterSeps chars (l2 :: rest)

/-- breakLineIntoWords of PdfminerExtractor.ts (lines 425 to 529):
filters disallowed and fake characters, maps records to optional
characters, trims separators at both ends, returns no words for an
empty or single-undefined list, and otherwise splits at the undefined
entries into words. -/
def breakLineIntoWords [FloorRing R] (texts : List (PdfminerText R))
    (wordSeparator : String) (pageHeight : R) (scalingFactor : R) :
    List (Word R) :=
  let fakeSpaces := thereAreFakeSpaces texts
  let chars0 := (texts.filter fun t =>
    (match t.content with
     | some s => !(notAllowedChars.contains s)
     | none => true) && !(isFakeChar t fakeSpaces)).map
      (charOf pageHeight scalingFactor)
  let chars := trimBack wordSeparator (trimFront wordSeparator chars0)
  if chars.length = 0 ∨ (chars.length = 1 ∧ chars[0]? = some none) then []
  else
    match sepLocs chars with
    | [] => [wordOf (chars.filterMap id)]
    | l0 :: rest =>
      let first := (chars.take l0).filterMap id
      (if 0 < first.length then [wordOf first] else []) ++
        wordsAfterSeps chars (l0 :: rest)

/-- A page as assembled by the pdfminer extractor: a 1-based page number
and its elements. -/
structure PageM (R : Type) where
  pageNumber : ℕ
  elements : List (Word R)
deriving DecidableEq, Repr

/-- The renumbering pass of extractFile (source line 85): every page of
the accumulated document receives pageNumber index + 1. -/
def renumberPages (pages : List (PageM R)) : List (PageM R) :=
  pages.enum.map fun p => { p.2 with pageNumber := p.1 + 1 }

/-- extractFile of PdfminerExtractor.ts (lines 70 to 92) with the 500
page batch size of its only call site.  The pdfminer pipeline behind one
batch (extractPages, xmlParser, jsParser) is abstracted into the
extractBatch oracle; after each batch the pages are concatenated and
renumbered, and extraction recurses while totalPages (when known)
exceeds toPage + 1. -/
def extractFile (extractBatch : ℕ → List (PageM R)) (totalPages : Option ℕ)
    (pageIndex : ℕ) (acc : List (PageM R)) : List (PageM R) :=
  let toPage : ℤ := (pageIndex : ℤ) * 500 - 1
  let pages := renumberPages (acc ++ extractBatch pageIndex)
  match totalPages with
  | none => pages
  | some t =>
    if (t : ℤ) > toPage + 1 then
      extractFile extractBatch (some t) (pageIndex + 1) pages
    else pages
termination_by (totalPages.getD 0 + 1) - pageIndex * 500
decreasing_by
  simp only [Option.getD_some]
  omega

/-- The environment extractImagesAndFonts interacts with: whether mutool
is on the system, the exit status of mutool extract, its stderr and the
extraction folder. -/
structure MutoolEnv where
  mutoolFound : Bool
  extractStatus : ℤ
  stderrOutput : String
  extractLocation : String
deriving DecidableEq, Repr

/-- extractImagesAndFonts of extractImagesFonts.ts (lines 27 to 56) as
the settlement of its promise.  Without mutool it resolves with the
empty string; a nonzero mutool extract status rejects with the stderr
text (the font renaming that follows in the source only touches the
filesystem and cannot change the settlement, the promise being already
rejected); otherwise it resolves with the extraction folder. -/
def extractImagesAndFonts (env : MutoolEnv) : Except String String :=
  if !env.mutoolFound then Except.ok ""
  else if env.extractStatus ≠ 0 then Except.error env.stderrOutput
  else Except.ok env.extractLocation

end Parsr

namespace Parsr

variable {R : Type} [LinearOrderedCommRing R]

/-! Counting and sorted-boundary infrastructure used by the span
lemmas. -/

theorem countP_split {α : Type} (l : List α) (P Q S : α → Prop)
    [DecidablePred P] [DecidablePred Q] [DecidablePred S]
    (h : ∀ a ∈ l, (P a ↔ Q a ∨ S a) ∧ ¬(Q a ∧ S a)) :
    l.countP (fun a => decide (P a)) =
      l.countP (fun a => decide (Q a)) + l.countP (fun a => decide (S a)) := by
  induction l with
  | nil => simp
  | cons a t ih =>
    have ha := h a (List.mem_cons_self a t)
    have ht := ih fun x hx => h x (List.mem_cons_of_mem a hx)
    rcases ha with ⟨hiff, hnot⟩
    by_cases hq : Q a
    · have hr : ¬ S a := fun hr => hnot ⟨hq, hr⟩
      have hp : P a := hiff.mpr (Or.inl hq)
      simp [List.countP_cons, hp, hq, hr, ht]
      omega
    · by_cases hr : S a
      · have hp : P a := hiff.mpr (Or.inr hr)
        simp [List.countP_cons, hp, hq, hr, ht]
        omega
      · have hp : ¬ P a := fun hp => (hiff.mp hp).elim hq hr
        simp [List.countP_cons, hp, hq, hr, ht]

theorem zip_tail_spec {B : List R} (hs : List.Pairwise (· < ·) B) {p q : R}
    (hm : (p, q) ∈ B.zip B.tail) :
    p < q ∧ p ∈ B ∧ q ∈ B ∧ ∀ y ∈ B, y ≤ p ∨ q ≤ y := by
  induction B with
  | nil => simp at hm
  | cons a t ih =>
    cases t with
    | nil => simp at hm
    | cons b t2 =>
      have hm2 : (p, q) = (a, b) ∨ (p, q) ∈ (b :: t2).zip t2 := by
        simpa using hm
      rcases hm2 with heq | hmem
      · injection heq with hp hq
        subst hp; subst hq
        have hab : p < q := (List.pairwise_cons.mp hs).1 q (List.mem_cons_self _ _)
        refine ⟨hab, List.mem_cons_self _ _,
          List.mem_cons_of_mem _ (List.mem_cons_self _ _), ?_⟩
        intro y hy
        rcases List.mem_cons.mp hy with rfl | hy2
        · exact Or.inl le_rfl
        · rcases List.mem_cons.mp hy2 with rfl | hy3
          · exact Or.inr le_rfl
          · exact Or.inr (le_of_lt
              ((List.pairwise_cons.mp (List.pairwise_cons.mp hs).2).1 y hy3))
      · have hs2 : List.Pairwise (· < ·) (b :: t2) := (List.pairwise_cons.mp hs).2
        obtain ⟨hpq, hpB, hqB, hdi⟩ := ih hs2 hmem
        refine ⟨hpq, List.mem_cons_of_mem a hpB, List.mem_cons_of_mem a hqB, ?_⟩
        intro y hy
        rcases List.mem_cons.mp hy with rfl | hy2
        · exact Or.inl (le_of_lt ((List.pairwise_cons.mp hs).1 p hpB))
        · exact hdi y hy2

theorem zip_tail_nodup {B : List R} (hs : List.Pairwise (· < ·) B) :
    (B.zip B.tail).Nodup := by
  induction B with
  | nil => simp
  | cons a t ih =>
    cases t with
    | nil => simp
    | cons b t2 =>
      have hs2 : List.Pairwise (· < ·) (b :: t2) := (List.pairwise_cons.mp hs).2
      have ihn := ih hs2
      simp only [List.tail_cons, List.zip_cons_cons]
      refine List.nodup_cons.mpr ⟨?_, ihn⟩
      intro hmem
      obtain ⟨_, hpB, _, _⟩ := zip_tail_spec hs2 hmem
      exact lt_irrefl a ((List.pairwise_cons.mp hs).1 a hpB)

theorem sorted_head_le {B : List R} (hs : List.Pairwise (· < ·) B) {h0 x : R}
    (hh : B.head? = some h0) (hx : x ∈ B) : h0 ≤ x := by
  cases B with
  | nil => simp at hh
  | cons a t =>
    have ha : a = h0 := by simpa using hh
    subst ha
    rcases List.mem_cons.mp hx with rfl | hx2
    · exact le_rfl
    · exact le_of_lt ((List.pairwise_cons.mp hs).1 x hx2)

theorem sorted_le_getLast {B : List R} (hs : List.Pairwise (· < ·) B) {z x : R}
    (hz : B.getLast? = some z) (hx : x ∈ B) : x ≤ z := by
  induction B with
  | nil => simp at hx
  | cons a t ih =>
    cases t with
    | nil =>
      have hxa : x = a := by simpa using hx
      have hza : a = z := by simpa using hz
      subst hxa; subst hza; exact le_rfl
    | cons b t2 =>
      have hz2 : (b :: t2).getLast? = some z := by
        simpa [List.getLast?_cons_cons] using hz
      have hs2 : List.Pairwise (· < ·) (b :: t2) := (List.pairwise_cons.mp hs).2
      rcases List.mem_cons.mp hx with rfl | hx2
      · have hzmem : z ∈ b :: t2 :=
          List.mem_of_mem_getLast? (Option.mem_def.mpr hz2)
        exact le_of_lt ((List.pairwise_cons.mp hs).1 z hzmem)
      · exact ih hs2 hz2 hx2

theorem boundarySpan_split {B : List R} (hs : List.Pairwise (· < ·) B)
    {x y z : R} (hy : y ∈ B) (hxy : x ≤ y) (hyz : y ≤ z) :
    boundarySpan B x z = boundarySpan B x y + boundarySpan B y z := by
  unfold boundarySpan
  apply countP_split
  rintro ⟨p, q⟩ hpq
  obtain ⟨hlt, hpB, hqB, hdi⟩ := zip_tail_spec hs hpq
  rcases hdi y hy with h1 | h2
  · have hmaxx : max x p = p := max_eq_right (le_trans hxy h1)
    have hmaxy : max y p = p := max_eq_right h1
    have hminy : min y q = y := min_eq_left (le_trans h1 (le_of_lt hlt))
    constructor
    · constructor
      · intro hp
        right
        rw [hmaxy]
        rw [hmaxx] at hp
        exact hp
      · rintro (hq | hr)
        · exfalso
          rw [hminy, hmaxx] at hq
          simp only at hq
          linarith
        · rw [hmaxy] at hr
          rw [hmaxx]
          exact hr
    · rintro ⟨hq, _⟩
      rw [hminy, hmaxx] at hq
      simp only at hq
      linarith
  · have hminz : min z q = q := min_eq_right (le_trans h2 hyz)
    have hminy : min y q = q := min_eq_right h2
    have hmaxy : max y p = y := max_eq_left (le_of_lt (lt_of_lt_of_le hlt h2))
    constructor
    · constructor
      · intro hp
        left
        rw [hminy]
        rw [hminz] at hp
        exact hp
      · rintro (hq | hr)
        · rw [hminy] at hq
          rw [hminz]
          exact hq
        · exfalso
          rw [hminz, hmaxy] at hr
          simp only at hr
          linarith
    · rintro ⟨_, hr⟩
      rw [hminz, hmaxy] at hr
      simp only at hr
      linarith

theorem boundarySpan_full {B : List R} (hs : List.Pairwise (· < ·) B)
    {lo hi : R} (h : ∀ y ∈ B, lo ≤ y ∧ y ≤ hi) :
    boundarySpan B lo hi = B.length - 1 := by
  unfold boundarySpan
  have hlen : (B.zip B.tail).length = B.length - 1 := by
    rw [List.length_zip, List.length_tail]
    omega
  rw [← hlen, List.countP_eq_length]
  rintro ⟨p, q⟩ hpq
  obtain ⟨hlt, hpB, hqB, _⟩ := zip_tail_spec hs hpq
  have h1 := h p hpB
  have h2 := h q hqB
  simp only [decide_eq_true_eq]
  rw [min_eq_right h2.2, max_eq_right h1.1]
  linarith

theorem boundarySpan_self {B : List R} (hs : List.Pairwise (· < ·) B)
    {x : R} (hx : x ∈ B) : boundarySpan B x x = 0 := by
  unfold boundarySpan
  rw [List.countP_eq_zero]
  rintro ⟨p, q⟩ hpq
  obtain ⟨hlt, hpB, hqB, hdi⟩ := zip_tail_spec hs hpq
  simp only [decide_eq_true_eq, not_lt]
  rcases hdi x hx with h1 | h2
  · have ha : min x q ≤ x := min_le_left _ _
    have hb : p ≤ max x p := le_max_right _ _
    linarith
  · have ha : min x q ≤ q := min_le_right _ _
    have hb : x ≤ max x p := le_max_left _ _
    linarith

theorem boundarySpan_pair {B : List R} (hs : List.Pairwise (· < ·) B)
    {x y : R} (hm : (x, y) ∈ B.zip B.tail) : boundarySpan B x y = 1 := by
  obtain ⟨hxy, hxB, hyB, hdixy⟩ := zip_tail_spec hs hm
  unfold boundarySpan
  have hcong : ∀ a ∈ B.zip B.tail,
      (decide (2 * (min y a.2 - max x a.1) > a.2 - a.1) = true) ↔
        (decide (a = (x, y)) = true) := by
    rintro ⟨p, q⟩ hpq
    obtain ⟨hlt, hpB, hqB, hdi⟩ := zip_tail_spec hs hpq
    simp only [decide_eq_true_eq]
    constructor
    · intro hcov
      have hxp : x ≤ p := by
        rcases hdi x hxB with h | h
        · exact h
        · exfalso
          have ha : min y q ≤ q := min_le_right _ _
          have hb : x ≤ max x p := le_max_left _ _
          linarith
      have hqy : q ≤ y := by
        rcases hdi y hyB with h | h
        · exfalso
          have ha : min y q ≤ y := min_le_left _ _
          have hb : p ≤ max x p := le_max_right _ _
          linarith
        · exact h
      have hpx : p = x := by
        rcases hdixy p hpB with h | h
        · exact le_antisymm h hxp
        · exfalso
          linarith
      have hqe : q = y := by
        rcases hdixy q hqB with h | h
        · exfalso
          linarith
        · exact le_antisymm hqy h
      rw [hpx, hqe]
    · intro he
      injection he with h1 h2
      subst h1; subst h2
      rw [min_self, max_self]
      linarith
  rw [List.countP_congr hcong]
  have hcount : (B.zip B.tail).countP (fun a => decide (a = (x, y))) =
      @List.count _ instBEqOfDecidableEq (x, y) (B.zip B.tail) := by
    rw [@List.count_eq_countP _ instBEqOfDecidableEq]
    rfl
  rw [hcount]
  exact List.count_eq_one_of_mem (zip_tail_nodup hs) hm

theorem mem_dedupSort {l : List R} {x : R} : x ∈ dedupSort l ↔ x ∈ l := by
  unfold dedupSort
  rw [List.mem_dedup]
  exact (List.perm_insertionSort (· ≤ ·) l).mem_iff

theorem pairwise_dedupSort (l : List R) :
    List.Pairwise (· < ·) (dedupSort l) := by
  have h1 : List.Sorted (· ≤ ·) (l.insertionSort (· ≤ ·)) :=
    List.sorted_insertionSort (· ≤ ·) l
  have h2 : List.Pairwise (· ≤ ·) (dedupSort l) :=
    List.Pairwise.sublist (List.dedup_sublist _) h1
  have h3 : List.Pairwise (· ≠ ·) (dedupSort l) := List.nodup_dedup _
  exact (h2.and h3).imp fun h => lt_of_le_of_ne h.1 h.2

theorem dedupSort_eq {l L : List R} (hL : List.Pairwise (· < ·) L)
    (hmem : ∀ x, x ∈ l ↔ x ∈ L) : dedupSort l = L := by
  have hnd : (dedupSort l).Nodup := (pairwise_dedupSort l).imp fun h => ne_of_lt h
  have hndL : L.Nodup := hL.imp fun h => ne_of_lt h
  have hperm : (dedupSort l).Perm L := by
    rw [List.perm_ext_iff_of_nodup hnd hndL]
    intro a
    rw [mem_dedupSort]
    exact hmem a
  exact List.eq_of_perm_of_sorted hperm
    ((pairwise_dedupSort l).imp fun h => le_of_lt h)
    (hL.imp fun h => le_of_lt h)

theorem tilesFrom_sum {B : List R} (hs : List.Pairwise (· < ·) B) {z : R}
    (hz : B.getLast? = some z) :
    ∀ (cells : List (RawCell R)) (x : R), x ∈ B → tilesFrom B x cells = true →
      (cells.map fun c => boundarySpan B c.box.x0 c.box.x1).sum =
        boundarySpan B x z := by
  intro cells
  induction cells with
  | nil =>
    intro x hx ht
    simp only [tilesFrom, decide_eq_true_eq] at ht
    rw [hz] at ht
    injection ht with hzx
    subst hzx
    simp [boundarySpan_self hs hx]
  | cons c cs ih =>
    intro x hx ht
    simp only [tilesFrom, Bool.and_eq_true, decide_eq_true_eq] at ht
    obtain ⟨⟨⟨h0, h1⟩, h2⟩, h3⟩ := ht
    have hrec := ih c.box.x1 h2 h3
    have hle : c.box.x1 ≤ z := sorted_le_getLast hs hz h2
    have hxy : x ≤ c.box.x1 := le_of_lt h1
    rw [List.map_cons, List.sum_cons, hrec, h0,
      ← boundarySpan_split hs h2 hxy hle]

theorem slotOf_width (g : RawGrid R) (k : ℕ) (c : RawCell R) :
    (slotOf g k c).width = colspanOf g c := by
  unfold slotOf
  by_cases h : isContinuation g k c <;> simp [h, Slot.width]

theorem reconstructTable_guard {g : RawGrid R} {T : TableM R}
    (hT : reconstructTable g = some T) :
    g ≠ [] ∧ 2 ≤ (colBoundaries g).length := by
  unfold reconstructTable at hT
  by_cases hc : g.isEmpty = true ∨ (colBoundaries g).length < 2
  · rw [if_pos hc] at hT
    exact absurd hT (by simp)
  · push_neg at hc
    exact ⟨List.isEmpty_eq_false.mp (Bool.not_eq_true _ ▸ hc.1), by omega⟩

theorem reconstructTable_eq {g : RawGrid R} {T : TableM R}
    (hT : reconstructTable g = some T) :
    T = { rows := (List.range g.length).map fun k =>
            buildRow g ((colBoundaries g).length - 1) k (g.getD k [])
          columnCount := (colBoundaries g).length - 1
          box := (mergeRects ((g.flatten).map (·.box))).getD ⟨0, 0, 0, 0⟩ } := by
  obtain ⟨h1, h2⟩ := reconstructTable_guard hT
  unfold reconstructTable at hT
  rw [if_neg] at hT
  · injection hT with h
    exact h.symm
  · simp only [not_or, not_lt]
    exact ⟨by simpa [List.isEmpty_iff] using h1, by omega⟩

theorem reconstructTable_rows_getD {g : RawGrid R} {T : TableM R}
    (hT : reconstructTable g = some T) {k : ℕ} (hk : k < g.length) :
    T.rows.getD k [] = buildRow g T.columnCount k (g.getD k []) := by
  have hTe := reconstructTable_eq hT
  rw [hTe]
  simp only
  rw [List.getD_eq_getElem _ _ (by simpa using hk), List.getElem_map,
    List.getElem_range]

theorem buildRow_of_sum {g : RawGrid R} {k : ℕ} {row : RawRow R} {n : ℕ}
    (hsum : (row.map fun c => colspanOf g c).sum = n) :
    buildRow g n k row = row.map (slotOf g k) ∧
    rowWidthSum (buildRow g n k row) = n := by
  have hw : rowWidthSum (row.map (slotOf g k)) = n := by
    unfold rowWidthSum
    rw [List.map_map]
    have hfn : (Slot.width ∘ slotOf g k) = fun c => colspanOf g c :=
      funext fun c => slotOf_width g k c
    rw [hfn, hsum]
  unfold buildRow
  rw [if_pos hw]
  exact ⟨rfl, hw⟩

/-- C1, amended: for every produced table, every row whose raw cells, in
left-to-right order, exactly tile the canonical column span with
boundaries on the canonical grid has emitted colspans plus
rowspan-continuation widths summing to the canonical column count; a
row failing that geometric condition can fail the span-sum check and is
then degraded to colspan-1 cells, which may violate the equality. -/
theorem claimC1_amended {g : RawGrid R} {T : TableM R}
    (hT : reconstructTable g = some T) {k : ℕ} (hk : k < g.length)
    {h0 : R} (hhead : (colBoundaries g).head? = some h0)
    (htiles : tilesFrom (colBoundaries g) h0 (g.getD k []) = true) :
    rowWidthSum (T.rows.getD k []) = T.columnCount := by
  obtain ⟨hg1, hg2⟩ := reconstructTable_guard hT
  have hs : List.Pairwise (· < ·) (colBoundaries g) := pairwise_dedupSort _
  have hBne : colBoundaries g ≠ [] := by
    intro h
    rw [h] at hg2
    simp at hg2
  obtain ⟨z, hz⟩ : ∃ z, (colBoundaries g).getLast? = some z := by
    cases hzo : (colBoundaries g).getLast? with
    | none => exact absurd (List.getLast?_eq_none_iff.mp hzo) hBne
    | some z => exact ⟨z, rfl⟩
  have h0B : h0 ∈ colBoundaries g :=
    List.mem_of_mem_head? (Option.mem_def.mpr hhead)
  have hsum := tilesFrom_sum hs hz (g.getD k []) h0 h0B htiles
  have hfull : boundarySpan (colBoundaries g) h0 z =
      (colBoundaries g).length - 1 := by
    refine boundarySpan_full hs ?_
    intro y hy
    exact ⟨sorted_head_le hs hhead hy, sorted_le_getLast hs hz hy⟩
  have hcc : T.columnCount = (colBoundaries g).length - 1 := by
    rw [reconstructTable_eq hT]
  rw [reconstructTable_rows_getD hT hk]
  have hcolsum : ((g.getD k []).map fun c => colspanOf g c).sum = T.columnCount := by
    unfold colspanOf
    rw [hsum, hfull, hcc]
  exact (buildRow_of_sum hcolsum).2

/-- C1 counterexample: the grid `gridBad` is reconstructed into a table
(two canonical columns) whose second row is degraded by the span-sum
fallback and sums to 1, not to the canonical column count 2; so the
unconditional row-sum invariant fails on the algorithm's output. -/
theorem claimC1_counterexample :
    reconstructTable gridBad = some tableBad ∧
    tableBad.columnCount = 2 ∧
    rowWidthSum (tableBad.rows.getD 1 []) = 1 := by
  refine ⟨by decide, by decide, by decide⟩

/-- C1 witness: the rowspan grid `gridSpan` has a second raw row that
tiles the six canonical columns, and the amended invariant gives its
reconstructed row (one continuation slot plus five emitted cells) a
width sum equal to the canonical column count. -/
theorem claimC1_amended_witness :
    reconstructTable gridSpan = some tableSpan ∧
    rowWidthSum (tableSpan.rows.getD 1 []) = tableSpan.columnCount := by
  have hT : reconstructTable gridSpan = some tableSpan := by decide
  exact ⟨hT, claimC1_amended hT (by decide)
    (show (colBoundaries gridSpan).head? = some 0 by decide) (by decide)⟩

/-- C5: an Extractor response of [] for a page yields zero Table
elements on that page and leaves the page's original element list
unchanged; the stage is a total function, so no error is raised. -/
theorem claimC5 (elems : List (PageElement R)) :
    tableDetectionPage [] elems = elems ∧
    countTables (tableDetectionPage [] elems) = countTables elems :=
  ⟨rfl, rfl⟩

/-- C9: for a pdfminer bbox x0, y0, x1, y1, page height H and scaling
factor s, getBoundingBox returns left x0 * s, width the absolute
difference of the scaled horizontal components, height the absolute
difference of the scaled vertical components, and top
the absolute value of H minus the scaled y0, minus the height; width
and height are nonnegative. -/
theorem claimC9 (x0 y0 x1 y1 pageHeight scalingFactor : ℚ) :
    getBoundingBox [x0, y0, x1, y1] pageHeight scalingFactor =
      { left := x0 * scalingFactor
        top := |pageHeight - y0 * scalingFactor| -
          |y0 * scalingFactor - y1 * scalingFactor|
        width := |x1 * scalingFactor - x0 * scalingFactor|
        height := |y0 * scalingFactor - y1 * scalingFactor| } ∧
    0 ≤ (getBoundingBox [x0, y0, x1, y1] pageHeight scalingFactor).width ∧
    0 ≤ (getBoundingBox [x0, y0, x1, y1] pageHeight scalingFactor).height := by
  refine ⟨rfl, ?_, ?_⟩ <;> exact abs_nonneg _

/-- C10: when mutool is not found, extractImagesAndFonts resolves with
the empty string; it rejects only when the spawned mutool extract
process exits with a nonzero status, and then with that process's
stderr text. -/
theorem claimC10 (env : MutoolEnv) :
    (env.mutoolFound = false → extractImagesAndFonts env = Except.ok "") ∧
    (∀ msg, extractImagesAndFonts env = Except.error msg →
      env.mutoolFound = true ∧ env.extractStatus ≠ 0 ∧
        msg = env.stderrOutput) := by
  unfold extractImagesAndFonts
  constructor
  · intro h
    rw [h]
    rfl
  · intro msg h
    by_cases hf : env.mutoolFound
    · by_cases hst : env.extractStatus = 0
      · simp [hf, hst] at h
      · simp [hf, hst] at h
        exact ⟨hf, hst, h.symm⟩
    · simp [hf] at h

/-- C10 witness: a system without mutool resolves with the empty
string. -/
theorem claimC10_witness :
    extractImagesAndFonts ⟨false, 1, "boom", "loc"⟩ = Except.ok "" :=
  (claimC10 ⟨false, 1, "boom", "loc"⟩).1 rfl

/-- C4: a cell whose bounding box repeats a cell from an earlier raw row
(the extractor's duplicated rectangle for an active rowspan) is never
re-emitted as an independent cell in its row of the produced table, while
a cell with no earlier identical box is emitted in the row where it
begins. -/
theorem claimC4 {g : RawGrid R} {T : TableM R}
    (hT : reconstructTable g = some T) {k : ℕ} (hk : k < g.length)
    {c : RawCell R} (hc : c ∈ g.getD k []) :
    (isContinuation g k c = true →
      ∀ s ∈ T.rows.getD k [], Slot.isCellWithBox c.box s = false) ∧
    (isContinuation g k c = false →
      ∃ cs rs, Slot.cell c.box c.text cs rs ∈ T.rows.getD k []) := by
  rw [reconstructTable_rows_getD hT hk]
  have hcb : ∀ c2 : RawCell R, c2.box = c.box →
      isContinuation g k c2 = isContinuation g k c := by
    intro c2 hb
    unfold isContinuation
    simp only [hb]
  unfold buildRow
  split
  · constructor
    · intro hcont s hs
      obtain ⟨c2, hc2, rfl⟩ := List.mem_map.mp hs
      unfold slotOf
      by_cases h2 : isContinuation g k c2 = true
      · rw [if_pos h2]
        rfl
      · rw [if_neg h2]
        unfold Slot.isCellWithBox
        simp only [decide_eq_false_iff_not]
        intro hb
        rw [hcb c2 hb, hcont] at h2
        exact h2 rfl
    · intro hncont
      refine ⟨colspanOf g c, rowspanOf g c, ?_⟩
      have hsl : slotOf g k c =
          Slot.cell c.box c.text (colspanOf g c) (rowspanOf g c) := by
        unfold slotOf
        rw [if_neg (by simp [hncont])]
      rw [← hsl]
      exact List.mem_map_of_mem _ hc
  · constructor
    · intro hcont s hs
      obtain ⟨c2, hc2, rfl⟩ := List.mem_map.mp hs
      by_cases h2 : isContinuation g k c2 = true
      · rw [if_pos h2]
        rfl
      · rw [if_neg h2]
        unfold Slot.isCellWithBox
        simp only [decide_eq_false_iff_not]
        intro hb
        rw [hcb c2 hb, hcont] at h2
        exact h2 rfl
    · intro hncont
      refine ⟨1, 1, ?_⟩
      have hsl : (if isContinuation g k c then Slot.cont 1
          else Slot.cell c.box c.text 1 1) = Slot.cell c.box c.text 1 1 := by
        rw [if_neg (by simp [hncont])]
      rw [← hsl]
      exact List.mem_map_of_mem _ hc

/-- C4 witness: in the rowspan scenario the repeated rectangle of the
rowspan-2 cell is a continuation in the second row and is not re-emitted
there, while its first-row occurrence is emitted in the first row (with
rowspan 2 in the produced table). -/
theorem claimC4_witness :
    reconstructTable gridSpan = some tableSpan ∧
    isContinuation gridSpan 1 spanRepeatCell = true ∧
    (∀ s ∈ tableSpan.rows.getD 1 [],
      Slot.isCellWithBox spanRepeatCell.box s = false) ∧
    (∃ cs rs, Slot.cell spanRepeatCell.box spanRepeatCell.text cs rs ∈
      tableSpan.rows.getD 0 []) := by
  have hT : reconstructTable gridSpan = some tableSpan := by decide
  refine ⟨hT, by decide, ?_, ?_⟩
  · exact (claimC4 hT (k := 1) (by decide) (c := spanRepeatCell)
      (by decide)).1 (by decide)
  · exact (claimC4 hT (k := 0) (by decide) (c := spanRepeatCell)
      (by decide)).2 (by decide)

omit [LinearOrderedCommRing R] in
theorem foldl_best_of_le {rows : List (RawRow R)} {b : RawRow R}
    (h : ∀ rr ∈ rows, rr.length ≤ b.length) :
    rows.foldl (fun best r2 => if r2.length > best.length then r2 else best) b
      = b := by
  induction rows with
  | nil => rfl
  | cons a t ih =>
    simp only [List.foldl_cons]
    rw [if_neg (by have := h a (List.mem_cons_self _ _); omega)]
    exact ih fun rr hrr => h rr (List.mem_cons_of_mem _ hrr)

omit [LinearOrderedCommRing R] in
theorem referenceRow_cons {row0 : RawRow R} {rest : List (RawRow R)}
    (h0 : 0 < row0.length) (hrest : ∀ rr ∈ rest, rr.length ≤ row0.length) :
    referenceRow (row0 :: rest) = row0 := by
  unfold referenceRow
  simp only [List.foldl_cons, List.length_nil]
  rw [if_pos (by omega)]
  exact foldl_best_of_le hrest

theorem dedupSort_row_boundaries {n : ℕ} (hn : 1 ≤ n) {c : ℕ → R}
    (hc : StrictMono c) (mkCell : ℕ → RawCell R)
    (hx0 : ∀ j, (mkCell j).box.x0 = c j)
    (hx1 : ∀ j, (mkCell j).box.x1 = c (j + 1)) :
    dedupSort (((List.range n).map mkCell).flatMap fun cl =>
        [cl.box.x0, cl.box.x1]) = (List.range (n + 1)).map c := by
  apply dedupSort_eq
  · rw [List.pairwise_map]
    exact (List.pairwise_lt_range _).imp fun h => hc h
  · intro x
    constructor
    · intro hx
      rw [List.mem_flatMap] at hx
      obtain ⟨cl, hcl, hxcl⟩ := hx
      rw [List.mem_map] at hcl
      obtain ⟨j, hj, rfl⟩ := hcl
      rw [List.mem_range] at hj
      rw [List.mem_map]
      rcases List.mem_cons.mp hxcl with rfl | hxcl2
      · exact ⟨j, List.mem_range.mpr (by omega), (hx0 j).symm⟩
      · have hx1e : x = (mkCell j).box.x1 := by simpa using hxcl2
        exact ⟨j + 1, List.mem_range.mpr (by omega), by rw [hx1e, hx1 j]⟩
    · intro hx
      rw [List.mem_map] at hx
      obtain ⟨ki, hki, rfl⟩ := hx
      rw [List.mem_range] at hki
      rw [List.mem_flatMap]
      by_cases hkn : ki < n
      · refine ⟨mkCell ki, List.mem_map.mpr ⟨ki, List.mem_range.mpr hkn, rfl⟩, ?_⟩
        simp [hx0 ki]
      · have hkev : ki = n := by omega
        refine ⟨mkCell (n - 1),
          List.mem_map.mpr ⟨n - 1, List.mem_range.mpr (by omega), rfl⟩, ?_⟩
        have hlast : (mkCell (n - 1)).box.x1 = c n := by
          rw [hx1 (n - 1), Nat.sub_add_cancel hn]
        rw [hkev]
        simp [hlast]

/-- C3: in a table whose reference row has n aligned single cells, a raw
row consisting of a single cell spanning the entire canonical width is
reconstructed as a row with exactly one cell whose colspan is the
canonical column count n. -/
theorem claimC3 {n : ℕ} (hn : 1 ≤ n) {c r : ℕ → R} (hc : StrictMono c)
    (hr : StrictMono r) (txt : ℕ → String) (bigText : String) :
    ∃ T : TableM R,
      reconstructTable (fullRowGrid n c r txt bigText) = some T ∧
      T.columnCount = n ∧
      ∃ rs, T.rows.getD 1 [] =
        [Slot.cell ⟨c 0, r 1, c n, r 2⟩ bigText n rs] := by
  have href : referenceRow (fullRowGrid n c r txt bigText) =
      (List.range n).map fun j =>
        ({ box := ⟨c j, r 0, c (j + 1), r 1⟩, text := txt j } : RawCell R) := by
    unfold fullRowGrid
    apply referenceRow_cons
    · simpa using hn
    · intro rr hrr
      have hrr2 : rr = [({ box := ⟨c 0, r 1, c n, r 2⟩, text := bigText } :
          RawCell R)] := by
        simpa using hrr
      rw [hrr2]
      simpa using hn
  have hB : colBoundaries (fullRowGrid n c r txt bigText) =
      (List.range (n + 1)).map c := by
    unfold colBoundaries
    rw [href]
    exact dedupSort_row_boundaries hn hc _ (fun j => rfl) (fun j => rfl)
  have hBs : List.Pairwise (· < ·) ((List.range (n + 1)).map c) := by
    rw [List.pairwise_map]
    exact (List.pairwise_lt_range _).imp fun h => hc h
  have hglen : (fullRowGrid n c r txt bigText).length = 2 := by
    unfold fullRowGrid
    rfl
  obtain ⟨T, hT⟩ : ∃ T,
      reconstructTable (fullRowGrid n c r txt bigText) = some T := by
    unfold reconstructTable
    rw [if_neg]
    · exact ⟨_, rfl⟩
    · rw [hB]
      simp only [not_or, List.length_map, List.length_range]
      constructor
      · unfold fullRowGrid
        simp
      · omega
  have hcc : T.columnCount = n := by
    rw [reconstructTable_eq hT, hB]
    simp
  have hrow1 : (fullRowGrid n c r txt bigText).getD 1 [] =
      [({ box := ⟨c 0, r 1, c n, r 2⟩, text := bigText } : RawCell R)] := by
    unfold fullRowGrid
    rfl
  have hcont : isContinuation (fullRowGrid n c r txt bigText) 1
      ({ box := ⟨c 0, r 1, c n, r 2⟩, text := bigText } : RawCell R) = false := by
    unfold isContinuation
    rw [show (fullRowGrid n c r txt bigText).take 1 =
      [(List.range n).map fun j =>
        ({ box := ⟨c j, r 0, c (j + 1), r 1⟩, text := txt j } : RawCell R)]
      from rfl]
    rw [List.any_eq_false]
    intro rr hrr
    have hrr2 : rr = (List.range n).map fun j =>
        ({ box := ⟨c j, r 0, c (j + 1), r 1⟩, text := txt j } : RawCell R) := by
      simpa using hrr
    rw [hrr2, Bool.not_eq_true, List.any_eq_false]
    intro cl hcl
    obtain ⟨j, hj, rfl⟩ := List.mem_map.mp hcl
    simp only [decide_eq_true_eq, Bool.not_eq_true, decide_eq_false_iff_not]
    intro hbox
    have hy0 := congrArg Rect.y0 hbox
    simp only at hy0
    exact absurd hy0 (ne_of_lt (hr (by omega)))
  have hcolspan : colspanOf (fullRowGrid n c r txt bigText)
      ({ box := ⟨c 0, r 1, c n, r 2⟩, text := bigText } : RawCell R) = n := by
    unfold colspanOf
    rw [hB]
    have hbounds : ∀ y ∈ (List.range (n + 1)).map c, c 0 ≤ y ∧ y ≤ c n := by
      intro y hy
      obtain ⟨kk, hkk, rfl⟩ := List.mem_map.mp hy
      rw [List.mem_range] at hkk
      exact ⟨hc.monotone (Nat.zero_le kk), hc.monotone (by omega)⟩
    rw [boundarySpan_full hBs hbounds]
    simp
  have hsum : (([({ box := ⟨c 0, r 1, c n, r 2⟩, text := bigText } :
      RawCell R)]).map fun cl =>
        colspanOf (fullRowGrid n c r txt bigText) cl).sum = T.columnCount := by
    simp [hcolspan, hcc]
  refine ⟨T, hT, hcc,
    rowspanOf (fullRowGrid n c r txt bigText)
      ({ box := ⟨c 0, r 1, c n, r 2⟩, text := bigText } : RawCell R), ?_⟩
  rw [reconstructTable_rows_getD hT (by rw [hglen]; omega), hrow1,
    (buildRow_of_sum hsum).1]
  simp [slotOf, hcont, hcolspan]

/-- C3 witness: the six-column literal case, one raw cell spanning the
whole width of a six-column table becomes a single cell with colspan
6. -/
theorem claimC3_witness :
    ∃ T : TableM ℤ,
      reconstructTable (fullRowGrid 6 (fun k => (k : ℤ)) (fun k => (k : ℤ))
        (fun _ => "s") "big") = some T ∧
      T.columnCount = 6 ∧
      ∃ rs, T.rows.getD 1 [] = [Slot.cell ⟨0, 1, 6, 2⟩ "big" 6 rs] := by
  have h := claimC3 (R := ℤ) (n := 6) (by omega)
    (c := fun k => (k : ℤ)) (r := fun k => (k : ℤ))
    Nat.strictMono_cast Nat.strictMono_cast (fun _ => "s") "big"
  obtain ⟨T, hT, hcc, rs, hrow⟩ := h
  exact ⟨T, hT, hcc, rs, by simpa using hrow⟩

omit [LinearOrderedCommRing R] in
theorem pair_mem_zip_tail {B : List R} {j : ℕ} (hj1 : j < B.length)
    (hj2 : j + 1 < B.length) :
    (B.get ⟨j, hj1⟩, B.get ⟨j + 1, hj2⟩) ∈ B.zip B.tail := by
  have hlen : j < (B.zip B.tail).length := by
    rw [List.length_zip, List.length_tail]
    omega
  have he : (B.zip B.tail).get ⟨j, hlen⟩ =
      (B.get ⟨j, hj1⟩, B.get ⟨j + 1, hj2⟩) := by
    simp only [List.get_eq_getElem, List.getElem_zip, List.getElem_tail]
  rw [← he]
  exact List.get_mem _ _ _

omit [LinearOrderedCommRing R] in
theorem map_range_pair_mem {f : ℕ → R} {n j : ℕ} (hj : j < n) :
    (f j, f (j + 1)) ∈ ((List.range (n + 1)).map f).zip
      ((List.range (n + 1)).map f).tail := by
  have h1 : j < ((List.range (n + 1)).map f).length := by
    simp
    omega
  have h2 : j + 1 < ((List.range (n + 1)).map f).length := by
    simp
    omega
  have hmem := pair_mem_zip_tail h1 h2
  simpa [List.get_eq_getElem, List.getElem_map, List.getElem_range] using hmem

theorem sum_map_one {α : Type} (l : List α) :
    (l.map fun _ => (1 : ℕ)).sum = l.length := by
  induction l with
  | nil => rfl
  | cons a t ih => simp [ih, Nat.add_comm]

/-- C2: an aligned uniform grid of m rows and n columns (m, n at least
one, strictly increasing boundaries) reconstructs into a table with
canonical column count n whose every row has exactly the n raw cells,
each emitted with colspan 1 and rowspan 1. -/
theorem claimC2 {n m : ℕ} (hn : 1 ≤ n) (hm : 1 ≤ m) {c r : ℕ → R}
    (hc : StrictMono c) (hr : StrictMono r) (txt : ℕ → ℕ → String) :
    ∃ T : TableM R,
      reconstructTable (uniformGrid n m c r txt) = some T ∧
      T.columnCount = n ∧
      T.rows = (List.range m).map fun i => (List.range n).map fun j =>
        Slot.cell ⟨c j, r i, c (j + 1), r (i + 1)⟩ (txt i j) 1 1 := by
  have hglen : (uniformGrid n m c r txt).length = m := by
    unfold uniformGrid
    simp
  have hrowD : ∀ i, i < m → (uniformGrid n m c r txt).getD i [] =
      (List.range n).map fun j =>
        ({ box := ⟨c j, r i, c (j + 1), r (i + 1)⟩, text := txt i j } :
          RawCell R) := by
    intro i hi
    unfold uniformGrid
    rw [List.getD_eq_getElem _ _ (by simp; omega), List.getElem_map,
      List.getElem_range]
  have href : referenceRow (uniformGrid n m c r txt) =
      (List.range n).map fun j =>
        ({ box := ⟨c j, r 0, c (j + 1), r 1⟩, text := txt 0 j } : RawCell R) := by
    obtain ⟨m2, rfl⟩ : ∃ m2, m = m2 + 1 := ⟨m - 1, by omega⟩
    unfold uniformGrid
    rw [List.range_succ_eq_map, List.map_cons]
    apply referenceRow_cons
    · simpa using hn
    · intro rr hrr
      rw [List.map_map, List.mem_map] at hrr
      obtain ⟨i, _, rfl⟩ := hrr
      simp
  have hB : colBoundaries (uniformGrid n m c r txt) =
      (List.range (n + 1)).map c := by
    unfold colBoundaries
    rw [href]
    exact dedupSort_row_boundaries hn hc _ (fun j => rfl) (fun j => rfl)
  have hRB : rowBoundaries (uniformGrid n m c r txt) =
      (List.range (m + 1)).map r := by
    unfold rowBoundaries
    apply dedupSort_eq
    · rw [List.pairwise_map]
      exact (List.pairwise_lt_range _).imp fun h => hr h
    · intro x
      constructor
      · intro hx
        rw [List.mem_flatMap] at hx
        obtain ⟨rr, hrr, hx2⟩ := hx
        unfold uniformGrid at hrr
        obtain ⟨i, hi, rfl⟩ := List.mem_map.mp hrr
        rw [List.mem_range] at hi
        rw [List.mem_flatMap] at hx2
        obtain ⟨cl, hcl, hx3⟩ := hx2
        obtain ⟨j, hj, rfl⟩ := List.mem_map.mp hcl
        rcases List.mem_cons.mp hx3 with rfl | h4
        · exact List.mem_map.mpr ⟨i, List.mem_range.mpr (by omega), rfl⟩
        · have hx5 : x = r (i + 1) := by simpa using h4
          rw [hx5]
          exact List.mem_map.mpr ⟨i + 1, List.mem_range.mpr (by omega), rfl⟩
      · intro hx
        obtain ⟨k, hk, rfl⟩ := List.mem_map.mp hx
        rw [List.mem_range] at hk
        rw [List.mem_flatMap]
        by_cases hkm : k < m
        · refine ⟨(List.range n).map fun j =>
            ({ box := ⟨c j, r k, c (j + 1), r (k + 1)⟩, text := txt k j } :
              RawCell R), ?_, ?_⟩
          · unfold uniformGrid
            exact List.mem_map.mpr ⟨k, List.mem_range.mpr hkm, rfl⟩
          · rw [List.mem_flatMap]
            refine ⟨_, List.mem_map.mpr ⟨0, List.mem_range.mpr (by omega), rfl⟩, ?_⟩
            simp
        · have hkev : k = m := by omega
          refine ⟨(List.range n).map fun j =>
            ({ box := ⟨c j, r (m - 1), c (j + 1), r (m - 1 + 1)⟩,
               text := txt (m - 1) j } : RawCell R), ?_, ?_⟩
          · unfold uniformGrid
            exact List.mem_map.mpr ⟨m - 1, List.mem_range.mpr (by omega), rfl⟩
          · rw [List.mem_flatMap]
            refine ⟨_, List.mem_map.mpr ⟨0, List.mem_range.mpr (by omega), rfl⟩, ?_⟩
            have hrr2 : r (m - 1 + 1) = r k := by
              rw [Nat.sub_add_cancel hm, hkev]
            simp [hrr2]
  have hBs : List.Pairwise (· < ·) ((List.range (n + 1)).map c) := by
    rw [List.pairwise_map]
    exact (List.pairwise_lt_range _).imp fun h => hc h
  have hRBs : List.Pairwise (· < ·) ((List.range (m + 1)).map r) := by
    rw [List.pairwise_map]
    exact (List.pairwise_lt_range _).imp fun h => hr h
  have hcolspan : ∀ i j, j < n →
      colspanOf (uniformGrid n m c r txt)
        ({ box := ⟨c j, r i, c (j + 1), r (i + 1)⟩, text := txt i j } :
          RawCell R) = 1 := by
    intro i j hj
    unfold colspanOf
    rw [hB]
    exact boundarySpan_pair hBs (map_range_pair_mem hj)
  have hrowspan : ∀ i j, i < m →
      rowspanOf (uniformGrid n m c r txt)
        ({ box := ⟨c j, r i, c (j + 1), r (i + 1)⟩, text := txt i j } :
          RawCell R) = 1 := by
    intro i j hi
    unfold rowspanOf
    rw [hRB]
    exact boundarySpan_pair hRBs (map_range_pair_mem hi)
  have hcont : ∀ k j, k < m →
      isContinuation (uniformGrid n m c r txt) k
        ({ box := ⟨c j, r k, c (j + 1), r (k + 1)⟩, text := txt k j } :
          RawCell R) = false := by
    intro k j hk
    unfold isContinuation
    rw [List.any_eq_false]
    intro rr hrr
    have htake : (uniformGrid n m c r txt).take k =
        (List.range k).map fun i => (List.range n).map fun j2 =>
          ({ box := ⟨c j2, r i, c (j2 + 1), r (i + 1)⟩, text := txt i j2 } :
            RawCell R) := by
      unfold uniformGrid
      rw [← List.map_take, List.take_range, min_eq_left (by omega)]
    rw [htake] at hrr
    obtain ⟨i, hi, rfl⟩ := List.mem_map.mp hrr
    rw [List.mem_range] at hi
    rw [Bool.not_eq_true, List.any_eq_false]
    intro cl hcl
    obtain ⟨j2, hj2, rfl⟩ := List.mem_map.mp hcl
    intro hbox0
    have hbox := of_decide_eq_true hbox0
    have hy0 := congrArg Rect.y0 hbox
    simp only at hy0
    have hik : i = k := hr.injective hy0
    omega
  have hne : uniformGrid n m c r txt ≠ ([] : RawGrid R) := by
    intro h
    rw [h] at hglen
    simp at hglen
    omega
  obtain ⟨T, hT⟩ : ∃ T, reconstructTable (uniformGrid n m c r txt) = some T := by
    unfold reconstructTable
    rw [if_neg]
    · exact ⟨_, rfl⟩
    · simp only [not_or, not_lt]
      constructor
      · simpa [List.isEmpty_iff] using hne
      · rw [hB]
        simp
        omega
  have hcc : T.columnCount = n := by
    rw [reconstructTable_eq hT, hB]
    simp
  refine ⟨T, hT, hcc, ?_⟩
  have hTe := reconstructTable_eq hT
  rw [hTe]
  simp only
  rw [hglen]
  apply List.map_congr_left
  intro k hk
  rw [List.mem_range] at hk
  rw [hrowD k hk]
  have hn2 : (colBoundaries (uniformGrid n m c r txt)).length - 1 = n := by
    rw [hB]
    simp
  rw [hn2]
  have hsum : (((List.range n).map fun j =>
      ({ box := ⟨c j, r k, c (j + 1), r (k + 1)⟩, text := txt k j } :
        RawCell R)).map fun cl =>
          colspanOf (uniformGrid n m c r txt) cl).sum = n := by
    rw [List.map_map]
    have hcg : ∀ j ∈ List.range n,
        ((fun cl => colspanOf (uniformGrid n m c r txt) cl) ∘ fun j =>
          ({ box := ⟨c j, r k, c (j + 1), r (k + 1)⟩, text := txt k j } :
            RawCell R)) j = (fun _ => (1 : ℕ)) j := by
      intro j hj
      simp only [Function.comp_apply]
      exact hcolspan k j (List.mem_range.mp hj)
    rw [List.map_congr_left hcg, sum_map_one, List.length_range]
  rw [(buildRow_of_sum hsum).1, List.map_map]
  apply List.map_congr_left
  intro j hj
  rw [List.mem_range] at hj
  simp only [Function.comp_apply]
  unfold slotOf
  rw [if_neg (by simp [hcont k j hk])]
  rw [hcolspan k j hj, hrowspan k j hk]

/-- C2 witness: the literal 3 by 6 case over the integers, every cell
colspan 1 and rowspan 1 and every row of length 6. -/
theorem claimC2_witness :
    ∃ T : TableM ℤ,
      reconstructTable (uniformGrid 6 3 (fun k => (k : ℤ)) (fun k => (k : ℤ))
        (fun _ _ => "t")) = some T ∧
      T.columnCount = 6 ∧
      T.rows = (List.range 3).map fun i => (List.range 6).map fun j =>
        Slot.cell ⟨((j : ℕ) : ℤ), ((i : ℕ) : ℤ), (((j + 1 : ℕ)) : ℤ),
          (((i + 1 : ℕ)) : ℤ)⟩ "t" 1 1 :=
  claimC2 (by omega) (by omega) Nat.strictMono_cast Nat.strictMono_cast
    (fun _ _ => "t")

theorem wordOf_spec {cs : List (Character R)} (h : cs ≠ []) :
    (wordOf cs).content ≠ [] ∧ (wordOf cs).box.isSome = true := by
  refine ⟨h, ?_⟩
  cases cs with
  | nil => exact absurd rfl h
  | cons a t => rfl

theorem wordsAfterSeps_spec (chars : List (Option (Character R))) :
    ∀ locs, ∀ w ∈ wordsAfterSeps chars locs,
      ∃ cs, cs ≠ [] ∧ w = wordOf cs := by
  intro locs
  induction locs with
  | nil =>
    intro w hw
    simp [wordsAfterSeps] at hw
  | cons l rest ih =>
    cases rest with
    | nil =>
      intro w hw
      unfold wordsAfterSeps at hw
      by_cases hsel : 0 < ((chars.drop (l + 1)).filterMap id).length
      · rw [if_pos hsel] at hw
        have hwv : w = wordOf ((chars.drop (l + 1)).filterMap id) := by
          simpa using hw
        exact ⟨_, by simpa using List.length_pos.mp hsel, hwv⟩
      · rw [if_neg hsel] at hw
        simp at hw
    | cons l2 rest2 =>
      intro w hw
      unfold wordsAfterSeps at hw
      rcases List.mem_append.mp hw with h1 | h2
      · by_cases hsel : 0 <
            (((chars.drop (l + 1)).take (l2 - (l + 1))).filterMap id).length
        · rw [if_pos hsel] at h1
          have hwv : w =
              wordOf (((chars.drop (l + 1)).take (l2 - (l + 1))).filterMap id) := by
            simpa using h1
          exact ⟨_, by simpa using List.length_pos.mp hsel, hwv⟩
        · rw [if_neg hsel] at h1
          simp at h1
      · exact ih w h2

theorem sepLocs_all_some (chars : List (Option (Character R)))
    (hsep : sepLocs chars = []) :
    ∀ i, i < chars.length → i ≠ 0 → chars[i]? ≠ some none := by
  intro i hi h0 hcon
  unfold sepLocs at hsep
  rw [List.filter_eq_nil_iff] at hsep
  refine hsep i ?_ (by simpa using fun h => absurd h (by omega))
  rw [List.mem_filter, List.mem_filter]
  refine ⟨⟨List.mem_range.mpr hi, by simpa using hcon⟩, by simpa using h0⟩

theorem trimmed_filterMap_ne_nil (chars : List (Option (Character R)))
    (hne : ¬(chars.length = 0 ∨ (chars.length = 1 ∧ chars[0]? = some none)))
    (hsep : sepLocs chars = []) : chars.filterMap id ≠ [] := by
  push_neg at hne
  obtain ⟨hlen0, hlen1⟩ := hne
  by_cases hone : chars.length = 1
  · obtain ⟨x, rfl⟩ := List.length_eq_one.mp hone
    cases x with
    | none => exact absurd rfl (hlen1 hone)
    | some ch => simp
  · have hlen2 : 2 ≤ chars.length := by
      cases hc : chars.length with
      | zero => exact absurd hc hlen0
      | succ k =>
        cases k with
        | zero => exact absurd hc hone
        | succ k2 => omega
    have h1 : chars[1]? ≠ some none :=
      sepLocs_all_some chars hsep 1 (by omega) (by omega)
    obtain ⟨x, hx⟩ : ∃ x, chars[1]? = some x := by
      cases hq : chars[1]? with
      | none =>
        rw [List.getElem?_eq_none_iff] at hq
        omega
      | some x => exact ⟨x, rfl⟩
    cases x with
    | none => exact absurd hx h1
    | some ch =>
      intro hnil
      have hmem : some ch ∈ chars := by
        obtain ⟨hb, he⟩ := List.getElem?_eq_some_iff.mp hx
        exact he ▸ List.getElem_mem hb
      have : ch ∈ chars.filterMap id := List.mem_filterMap.mpr ⟨some ch, hmem, rfl⟩
      rw [hnil] at this
      simp at this

/-- C6: every Word constructed by breakLineIntoWords holds at least one
Character, so every BoundingBox.merge call it makes receives a nonempty
list and the merge error branch is unreachable from this caller. -/
theorem claimC6 [FloorRing R] (texts : List (PdfminerText R))
    (wordSeparator : String) (pageHeight scalingFactor : R) :
    ∀ w ∈ breakLineIntoWords texts wordSeparator pageHeight scalingFactor,
      w.content ≠ [] ∧ w.box.isSome = true := by
  intro w hw
  have hrw : breakLineIntoWords texts wordSeparator pageHeight scalingFactor =
      (fun chars =>
        if chars.length = 0 ∨ (chars.length = 1 ∧ chars[0]? = some none) then []
        else
          match sepLocs chars with
          | [] => [wordOf (chars.filterMap id)]
          | l0 :: rest =>
            (if 0 < ((chars.take l0).filterMap id).length
             then [wordOf ((chars.take l0).filterMap id)] else []) ++
              wordsAfterSeps chars (l0 :: rest))
        (trimBack wordSeparator (trimFront wordSeparator
          ((texts.filter fun t =>
            (match t.content with
             | some s => !(notAllowedChars.contains s)
             | none => true) && !(isFakeChar t (thereAreFakeSpaces texts))).map
              (charOf pageHeight scalingFactor)))) := rfl
  rw [hrw] at hw
  simp only at hw
  revert hw
  generalize trimBack wordSeparator (trimFront wordSeparator
      ((texts.filter fun t =>
        (match t.content with
         | some s => !(notAllowedChars.contains s)
         | none => true) && !(isFakeChar t (thereAreFakeSpaces texts))).map
          (charOf pageHeight scalingFactor))) = chars
  intro hw
  by_cases hg : chars.length = 0 ∨ (chars.length = 1 ∧ chars[0]? = some none)
  · rw [if_pos hg] at hw
    simp at hw
  · rw [if_neg hg] at hw
    cases hsep : sepLocs chars with
    | nil =>
      rw [hsep] at hw
      have hwv : w = wordOf (chars.filterMap id) := by simpa using hw
      rw [hwv]
      exact wordOf_spec (trimmed_filterMap_ne_nil chars hg hsep)
    | cons l0 rest =>
      rw [hsep] at hw
      rcases List.mem_append.mp hw with h1 | h2
      · by_cases hsel : 0 < ((chars.take l0).filterMap id).length
        · rw [if_pos hsel] at h1
          have hwv : w = wordOf ((chars.take l0).filterMap id) := by
            simpa using h1
          rw [hwv]
          exact wordOf_spec (by simpa using List.length_pos.mp hsel)
        · rw [if_neg hsel] at h1
          simp at h1
      · obtain ⟨cs, hcs, rfl⟩ := wordsAfterSeps_spec chars (l0 :: rest) w h2
        exact wordOf_spec hcs

/-- C6 witness: a single-character line over the integers produces one
word with one character and a defined merged box. -/
theorem claimC6_witness :
    wordOf [⟨getBoundingBox [0, 0, 1, 1] (10 : ℤ) 1, "a",
      fontFromAttr ⟨"F", 1, [0, 0, 1, 1], [0, 0, 0]⟩⟩] ∈
      breakLineIntoWords (R := ℤ)
        [⟨some "a", some ⟨"F", 1, [0, 0, 1, 1], [0, 0, 0]⟩⟩] " " 10 1 ∧
    (wordOf [⟨getBoundingBox [0, 0, 1, 1] (10 : ℤ) 1, "a",
      fontFromAttr ⟨"F", 1, [0, 0, 1, 1], [0, 0, 0]⟩⟩]).content ≠ [] ∧
    (wordOf [⟨getBoundingBox [0, 0, 1, 1] (10 : ℤ) 1, "a",
      fontFromAttr ⟨"F", 1, [0, 0, 1, 1], [0, 0, 0]⟩⟩]).box.isSome = true := by
  have hmem : wordOf [⟨getBoundingBox [0, 0, 1, 1] (10 : ℤ) 1, "a",
      fontFromAttr ⟨"F", 1, [0, 0, 1, 1], [0, 0, 0]⟩⟩] ∈
      breakLineIntoWords (R := ℤ)
        [⟨some "a", some ⟨"F", 1, [0, 0, 1, 1], [0, 0, 0]⟩⟩] " " 10 1 := by
    decide
  exact ⟨hmem, claimC6 _ _ _ _ _ hmem⟩

omit [LinearOrderedCommRing R] in
theorem extractFile_eq_renumber (e : ℕ → List (PageM R)) :
    ∀ (tp : Option ℕ) (pi2 : ℕ) (acc : List (PageM R)),
      ∃ l, extractFile e tp pi2 acc = renumberPages l := by
  intro tp
  cases tp with
  | none =>
    intro pi2 acc
    refine ⟨acc ++ e pi2, ?_⟩
    rw [extractFile]
  | some t =>
    suffices h : ∀ k pi2 acc, t + 1 - pi2 * 500 = k →
        ∃ l, extractFile e (some t) pi2 acc = renumberPages l by
      intro pi2 acc
      exact h _ pi2 acc rfl
    intro k
    induction k using Nat.strong_induction_on with
    | _ k ih =>
      intro pi2 acc hk
      rw [extractFile]
      by_cases hc : (t : ℤ) > (pi2 : ℤ) * 500 - 1 + 1
      · rw [if_pos hc]
        push_cast at hc
        exact ih (t + 1 - (pi2 + 1) * 500) (by omega) (pi2 + 1) _ rfl
      · rw [if_neg hc]
        exact ⟨_, rfl⟩

omit [LinearOrderedCommRing R] in
theorem renumberPages_length (l : List (PageM R)) :
    (renumberPages l).length = l.length := by
  unfold renumberPages
  simp

omit [LinearOrderedCommRing R] in
theorem renumberPages_getD (l : List (PageM R)) (k : ℕ)
    (hk : k < (renumberPages l).length) :
    ((renumberPages l).getD k ⟨0, []⟩).pageNumber = k + 1 := by
  have hk2 : k < l.length := by
    rw [renumberPages_length] at hk
    exact hk
  unfold renumberPages
  rw [List.getD_eq_getElem _ _ (by simpa [renumberPages] using hk),
    List.getElem_map, List.getElem_enum]

omit [LinearOrderedCommRing R] in
/-- C7: after extractFile completes, for any batching oracle and any
number of 500-page batches, the k-th page of the resulting page list
(0-based k) carries pageNumber k + 1, so page numbers are consecutive
and 1-based. -/
theorem claimC7 (extractBatch : ℕ → List (PageM R)) (totalPages : Option ℕ)
    (pageIndex : ℕ) (acc : List (PageM R)) (k : ℕ)
    (hk : k < (extractFile extractBatch totalPages pageIndex acc).length) :
    ((extractFile extractBatch totalPages pageIndex acc).getD k
      ⟨0, []⟩).pageNumber = k + 1 := by
  obtain ⟨l, hl⟩ := extractFile_eq_renumber extractBatch totalPages pageIndex acc
  rw [hl] at hk ⊢
  exact renumberPages_getD l k hk

/-- C7 witness: a single two-page batch with scrambled incoming numbers
is renumbered so that the first page carries pageNumber 1. -/
theorem claimC7_witness :
    0 < (extractFile (R := ℤ) (fun _ => [⟨7, []⟩, ⟨9, []⟩]) none 1 []).length ∧
    ((extractFile (R := ℤ) (fun _ => [⟨7, []⟩, ⟨9, []⟩]) none 1 []).getD 0
      ⟨0, []⟩).pageNumber = 0 + 1 := by
  have hlen :
      (extractFile (R := ℤ) (fun _ => [⟨7, []⟩, ⟨9, []⟩]) none 1 []).length
        = 2 := by
    rw [extractFile]
    rfl
  refine ⟨by omega, ?_⟩
  exact claimC7 _ _ _ _ 0 (by omega)

theorem pushToBaskets_eq {α : Type} (isEq : α → α → Bool) (f : α)
    (B : List (List α)) :
    pushToBaskets isEq f B =
      (B.map fun b => if basketMatches isEq f b then b ++ [f] else b,
       B.any (basketMatches isEq f)) := by
  induction B with
  | nil => rfl
  | cons b bs ih =>
    unfold pushToBaskets
    rw [ih]
    by_cases h : basketMatches isEq f b = true
    · simp [h]
    · simp [h]

/-- The invariant the basket construction maintains over the processed
prefix `p` of the fonts: baskets are nonempty, internally equivalent to
their first element, sized by the class multiplicity in `p`, have
pairwise inequivalent first elements, cover every processed font, and
draw their members from `p`. -/
structure BasketsInv {α : Type} (isEq : α → α → Bool) (p : List α)
    (B : List (List α)) : Prop where
  nonempty : ∀ b ∈ B, b ≠ []
  coherent : ∀ b ∈ B, ∀ h, b.head? = some h → ∀ x ∈ b, isEq h x = true
  counts : ∀ b ∈ B, ∀ h, b.head? = some h → b.length = p.countP (isEq h)
  headsDistinct : B.Pairwise fun b1 b2 => ∀ h1 h2, b1.head? = some h1 →
      b2.head? = some h2 → isEq h1 h2 = false
  covered : ∀ x ∈ p, ∃ b ∈ B, ∃ h, b.head? = some h ∧ isEq h x = true
  members : ∀ b ∈ B, ∀ x ∈ b, x ∈ p

theorem basketsInv_nil {α : Type} (isEq : α → α → Bool) :
    BasketsInv isEq [] [] := by
  refine ⟨?_, ?_, ?_, ?_, ?_, ?_⟩ <;> simp

theorem basketsInv_step {α : Type} {isEq : α → α → Bool}
    (hrefl : ∀ a, isEq a a = true)
    (hsymm : ∀ a b, isEq a b = true → isEq b a = true)
    (htrans : ∀ a b c2, isEq a b = true → isEq b c2 = true →
      isEq a c2 = true)
    {p : List α} {B : List (List α)} (inv : BasketsInv isEq p B) (f : α) :
    BasketsInv isEq (p ++ [f])
      (let pr := pushToBaskets isEq f B
       if pr.2 then pr.1 else pr.1 ++ [[f]]) := by
  have hred : (let pr := pushToBaskets isEq f B
      if pr.2 then pr.1 else pr.1 ++ [[f]]) =
      (if B.any (basketMatches isEq f) then
        B.map fun b => if basketMatches isEq f b then b ++ [f] else b
       else (B.map fun b => if basketMatches isEq f b then b ++ [f] else b)
          ++ [[f]]) := by
    rw [pushToBaskets_eq]
  rw [hred]
  have hhead : ∀ b : List α, b ≠ [] →
      (if basketMatches isEq f b then b ++ [f] else b).head? = b.head? := by
    intro b hb
    obtain ⟨h, t, rfl⟩ := List.exists_cons_of_ne_nil hb
    by_cases hm : basketMatches isEq f (h :: t) = true
    · simp [hm]
    · simp [hm]
  have hmatch_head : ∀ b : List α, ∀ h : α, b.head? = some h →
      basketMatches isEq f b = isEq h f := by
    intro b h hh
    cases b with
    | nil => simp at hh
    | cons h2 t =>
      have hhe : h2 = h := by simpa using hh
      rw [← hhe]
      rfl
  by_cases hany : B.any (basketMatches isEq f) = true
  · rw [if_pos hany]
    refine ⟨?_, ?_, ?_, ?_, ?_, ?_⟩
    · intro b2 hb2
      obtain ⟨b, hb, rfl⟩ := List.mem_map.mp hb2
      have hbne := inv.nonempty b hb
      by_cases hm : basketMatches isEq f b = true
      · rw [if_pos hm]
        simp [hbne]
      · rw [if_neg hm]
        exact hbne
    · intro b2 hb2 h hh x hx
      obtain ⟨b, hb, rfl⟩ := List.mem_map.mp hb2
      have hbne := inv.nonempty b hb
      have hh2 : b.head? = some h := by
        rw [← hhead b hbne]
        exact hh
      by_cases hm : basketMatches isEq f b = true
      · rw [if_pos hm] at hx
        rcases List.mem_append.mp hx with hxb | hxf
        · exact inv.coherent b hb h hh2 x hxb
        · have hxf2 : x = f := by simpa using hxf
          rw [hxf2]
          rw [hmatch_head b h hh2] at hm
          exact hm
      · rw [if_neg hm] at hx
        exact inv.coherent b hb h hh2 x hx
    · intro b2 hb2 h hh
      obtain ⟨b, hb, rfl⟩ := List.mem_map.mp hb2
      have hbne := inv.nonempty b hb
      have hh2 : b.head? = some h := by
        rw [← hhead b hbne]
        exact hh
      have hcount := inv.counts b hb h hh2
      rw [List.countP_append, List.countP_singleton]
      by_cases hm : basketMatches isEq f b = true
      · rw [if_pos hm]
        rw [hmatch_head b h hh2] at hm
        rw [if_pos hm]
        simp [hcount]
      · rw [if_neg hm]
        rw [hmatch_head b h hh2] at hm
        rw [if_neg (by simp [hm])]
        simp [hcount]
    · rw [List.pairwise_map]
      refine List.Pairwise.imp_of_mem ?_ inv.headsDistinct
      intro b1 b2 hb1 hb2 hold h1 h2 hh1 hh2
      rw [hhead b1 (inv.nonempty b1 hb1)] at hh1
      rw [hhead b2 (inv.nonempty b2 hb2)] at hh2
      exact hold h1 h2 hh1 hh2
    · intro x hx
      rcases List.mem_append.mp hx with hxp | hxf
      · obtain ⟨b, hb, h, hh, he⟩ := inv.covered x hxp
        refine ⟨_, List.mem_map_of_mem _ hb, h, ?_, he⟩
        rw [hhead b (inv.nonempty b hb)]
        exact hh
      · have hxf2 : x = f := by simpa using hxf
        obtain ⟨b, hb, hm⟩ := List.any_eq_true.mp hany
        have hbne := inv.nonempty b hb
        obtain ⟨h, t, rfl⟩ := List.exists_cons_of_ne_nil hbne
        refine ⟨_, List.mem_map_of_mem _ hb, h, ?_, ?_⟩
        · rw [hhead _ hbne]
          rfl
        · rw [hxf2]
          exact hm
    · intro b2 hb2 x hx
      obtain ⟨b, hb, rfl⟩ := List.mem_map.mp hb2
      by_cases hm : basketMatches isEq f b = true
      · rw [if_pos hm] at hx
        rcases List.mem_append.mp hx with hxb | hxf
        · exact List.mem_append_left _ (inv.members b hb x hxb)
        · exact List.mem_append_right _ hxf
      · rw [if_neg hm] at hx
        exact List.mem_append_left _ (inv.members b hb x hx)
  · rw [if_neg hany]
    have hanyf : B.any (basketMatches isEq f) = false := by
      cases hq : B.any (basketMatches isEq f) with
      | false => rfl
      | true => exact absurd hq hany
    have hnomatch : ∀ b ∈ B, basketMatches isEq f b = false := by
      intro b hb
      have := List.any_eq_false.mp hanyf b hb
      cases hq : basketMatches isEq f b with
      | false => rfl
      | true => exact absurd hq this
    have hnoeq : ∀ b ∈ B, ∀ h, b.head? = some h → isEq h f = false := by
      intro b hb h hh
      rw [← hmatch_head b h hh]
      exact hnomatch b hb
    have hmapid : (B.map fun b =>
        if basketMatches isEq f b then b ++ [f] else b) = B := by
      have hcg : ∀ b ∈ B,
          (if basketMatches isEq f b then b ++ [f] else b) = id b := by
        intro b hb
        rw [if_neg (by simp [hnomatch b hb])]
        rfl
      rw [List.map_congr_left hcg, List.map_id]
    rw [hmapid]
    have hfresh : p.countP (isEq f) = 0 := by
      rw [List.countP_eq_zero]
      intro x hxp hfx
      obtain ⟨b, hb, h, hh, he⟩ := inv.covered x hxp
      have hxf : isEq x f = true := hsymm f x hfx
      have hhf : isEq h f = true := htrans h x f he hxf
      rw [hnoeq b hb h hh] at hhf
      exact absurd hhf (by simp)
    refine ⟨?_, ?_, ?_, ?_, ?_, ?_⟩
    · intro b hb
      rcases List.mem_append.mp hb with hbB | hbf
      · exact inv.nonempty b hbB
      · have : b = [f] := by simpa using hbf
        rw [this]
        simp
    · intro b hb h hh x hx
      rcases List.mem_append.mp hb with hbB | hbf
      · exact inv.coherent b hbB h hh x hx
      · have hbe : b = [f] := by simpa using hbf
        rw [hbe] at hh hx
        have hhf : h = f := by simpa using hh.symm
        have hxf : x = f := by simpa using hx
        rw [hhf, hxf]
        exact hrefl f
    · intro b hb h hh
      rw [List.countP_append, List.countP_singleton]
      rcases List.mem_append.mp hb with hbB | hbf
      · rw [if_neg (by simp [hnoeq b hbB h hh])]
        simp [inv.counts b hbB h hh]
      · have hbe : b = [f] := by simpa using hbf
        rw [hbe] at hh ⊢
        have hhf : h = f := by simpa using hh.symm
        rw [hhf, if_pos (hrefl f), hfresh]
        rfl
    · rw [List.pairwise_append]
      refine ⟨inv.headsDistinct, List.pairwise_singleton _ _, ?_⟩
      intro b1 hb1 b2 hb2 h1 h2 hh1 hh2
      have hb2e : b2 = [f] := by simpa using hb2
      rw [hb2e] at hh2
      have hh2f : h2 = f := by simpa using hh2.symm
      rw [hh2f]
      exact hnoeq b1 hb1 h1 hh1
    · intro x hx
      rcases List.mem_append.mp hx with hxp | hxf
      · obtain ⟨b, hb, h, hh, he⟩ := inv.covered x hxp
        exact ⟨b, List.mem_append_left _ hb, h, hh, he⟩
      · have hxf2 : x = f := by simpa using hxf
        refine ⟨[f], List.mem_append_right _ (by simp), f, rfl, ?_⟩
        rw [hxf2]
        exact hrefl f
    · intro b hb x hx
      rcases List.mem_append.mp hb with hbB | hbf
      · exact List.mem_append_left _ (inv.members b hbB x hx)
      · have hbe : b = [f] := by simpa using hbf
        rw [hbe] at hx
        have hxf : x = f := by simpa using hx
        rw [hxf]
        exact List.mem_append_right _ (by simp)

theorem buildBaskets_inv {α : Type} {isEq : α → α → Bool}
    (hrefl : ∀ a, isEq a a = true)
    (hsymm : ∀ a b, isEq a b = true → isEq b a = true)
    (htrans : ∀ a b c2, isEq a b = true → isEq b c2 = true →
      isEq a c2 = true) (fonts : List α) :
    BasketsInv isEq fonts (buildBaskets isEq fonts) := by
  have hgen : ∀ (fs p : List α) (B : List (List α)), BasketsInv isEq p B →
      BasketsInv isEq (p ++ fs)
        (fs.foldl (fun baskets f =>
          let pr := pushToBaskets isEq f baskets
          if pr.2 then pr.1 else pr.1 ++ [[f]]) B) := by
    intro fs
    induction fs with
    | nil =>
      intro p B inv
      simpa using inv
    | cons f fs2 ih =>
      intro p B inv
      have hstep := basketsInv_step hrefl hsymm htrans inv f
      have := ih (p ++ [f]) _ hstep
      simpa using this
  have := hgen fonts [] [] (basketsInv_nil isEq)
  simpa [buildBaskets] using this

theorem foldl_append_singleton {α : Type} :
    ∀ (l acc : List α), l.foldl (fun a b => a ++ [b]) acc = acc ++ l := by
  intro l
  induction l with
  | nil =>
    intro acc
    simp
  | cons a t ih =>
    intro acc
    rw [List.foldl_cons, ih]
    simp

/-- C8: getMostCommonFont is a pure function of its input list that
groups the fonts into equivalence classes of the given equality and
returns a representative of a class of maximal multiplicity; on the
empty list it returns the undefined font. -/
theorem claimC8 {α : Type} (isEq : α → α → Bool) (undefinedFont : α)
    (hrefl : ∀ a, isEq a a = true)
    (hsymm : ∀ a b, isEq a b = true → isEq b a = true)
    (htrans : ∀ a b c2, isEq a b = true → isEq b c2 = true →
      isEq a c2 = true) (theFonts : List α) :
    (theFonts = [] →
      getMostCommonFont isEq undefinedFont theFonts = undefinedFont) ∧
    (theFonts ≠ [] →
      getMostCommonFont isEq undefinedFont theFonts ∈ theFonts ∧
      ∀ g ∈ theFonts,
        theFonts.countP (isEq g) ≤
          theFonts.countP
            (isEq (getMostCommonFont isEq undefinedFont theFonts))) := by
  constructor
  · rintro rfl
    rfl
  · intro hne
    have hfonts : theFonts.foldl (fun a b => a ++ [b]) [] = theFonts := by
      rw [foldl_append_singleton]
      rfl
    have inv : BasketsInv isEq theFonts (buildBaskets isEq theFonts) :=
      buildBaskets_inv hrefl hsymm htrans theFonts
    haveI htotal : IsTotal (List α) (fun a b => b.length ≤ a.length) :=
      ⟨fun a b => le_total b.length a.length⟩
    haveI htr2 : IsTrans (List α) (fun a b => b.length ≤ a.length) :=
      ⟨fun a b c2 hab hbc => le_trans hbc hab⟩
    have hperm : ((buildBaskets isEq theFonts).insertionSort
        (fun a b => b.length ≤ a.length)).Perm (buildBaskets isEq theFonts) :=
      List.perm_insertionSort _ _
    have hsorted : List.Sorted (fun a b : List α => b.length ≤ a.length)
        ((buildBaskets isEq theFonts).insertionSort
          (fun a b => b.length ≤ a.length)) :=
      List.sorted_insertionSort _ _
    have hBne : buildBaskets isEq theFonts ≠ [] := by
      obtain ⟨x, t, rfl⟩ := List.exists_cons_of_ne_nil hne
      obtain ⟨b, hb, _⟩ := inv.covered x (List.mem_cons_self _ _)
      intro hBnil
      rw [hBnil] at hb
      simp at hb
    have hsne : ((buildBaskets isEq theFonts).insertionSort
        (fun a b => b.length ≤ a.length)) ≠ [] := by
      intro h
      have hlen := hperm.length_eq
      rw [h] at hlen
      exact hBne (List.length_eq_zero.mp hlen.symm)
    obtain ⟨b0, rest, hS⟩ := List.exists_cons_of_ne_nil hsne
    have hb0B : b0 ∈ buildBaskets isEq theFonts :=
      hperm.mem_iff.mp (by rw [hS]; exact List.mem_cons_self _ _)
    have hb0ne : b0 ≠ [] := inv.nonempty b0 hb0B
    obtain ⟨f0, b0t, hb0⟩ := List.exists_cons_of_ne_nil hb0ne
    have hunfold : getMostCommonFont isEq undefinedFont theFonts =
        (match (buildBaskets isEq
            (theFonts.foldl (fun a b => a ++ [b]) [])).insertionSort
              (fun a b => b.length ≤ a.length) with
         | (f :: _) :: _ => f
         | _ => undefinedFont) := rfl
    have hval : getMostCommonFont isEq undefinedFont theFonts = f0 := by
      rw [hunfold, hfonts, hS, hb0]
    have hh0 : b0.head? = some f0 := by
      rw [hb0]
      rfl
    have hmax : ∀ g ∈ theFonts,
        theFonts.countP (isEq g) ≤ theFonts.countP (isEq f0) := by
      intro g hg
      obtain ⟨bg, hbg, hgh, hghh, hghe⟩ := inv.covered g hg
      have hcongr : theFonts.countP (isEq g) = theFonts.countP (isEq hgh) := by
        apply List.countP_congr
        intro x hx
        constructor
        · intro hgx
          exact htrans hgh g x hghe hgx
        · intro hhx
          exact htrans g hgh x (hsymm hgh g hghe) hhx
      have hbglen : bg.length = theFonts.countP (isEq hgh) :=
        inv.counts bg hbg hgh hghh
      have hb0len : b0.length = theFonts.countP (isEq f0) :=
        inv.counts b0 hb0B f0 hh0
      have hle : bg.length ≤ b0.length := by
        have hbgS : bg ∈ b0 :: rest := by
          rw [← hS]
          exact hperm.mem_iff.mpr hbg
        rcases List.mem_cons.mp hbgS with rfl | hbgrest
        · exact le_rfl
        · have hpw := hsorted
          rw [hS] at hpw
          exact (List.pairwise_cons.mp hpw).1 bg hbgrest
      rw [hcongr, ← hbglen, ← hb0len]
      exact hle
    have hmem : f0 ∈ theFonts :=
      inv.members b0 hb0B f0 (by rw [hb0]; exact List.mem_cons_self _ _)
    rw [hval]
    exact ⟨hmem, hmax⟩

/-- C8 witness: on the list 1, 2, 2 with natural-number equality the
function returns 2, a member of the list with maximal class
multiplicity. -/
theorem claimC8_witness :
    getMostCommonFont (fun a b : ℕ => a == b) 0 [1, 2, 2] ∈ [1, 2, 2] ∧
    ∀ g ∈ [1, 2, 2],
      List.countP ((fun a b : ℕ => a == b) g) [1, 2, 2] ≤
        List.countP ((fun a b : ℕ => a == b)
          (getMostCommonFont (fun a b : ℕ => a == b) 0 [1, 2, 2])) [1, 2, 2] :=
  (claimC8 (fun a b : ℕ => a == b) 0
    (fun a => by simp)
    (fun a b h => by rw [beq_iff_eq] at *; omega)
    (fun a b c2 h1 h2 => by rw [beq_iff_eq] at *; omega)
    [1, 2, 2]).2 (by simp)

end Parsr
